import Mathlib

/-!
Verification of the GuessUs dictionary editor (Syrohub/guessus-editor).

The development shallowly embeds the data model and the state-transition
functions of the two editor revisions (src/src/App.tsx, called revision A
below, and the unnamed second revision, called revision B) and proves
properties of duplicate detection, duplicate removal, the legacy format
conversions, cell editing, bulk move and the state invariants.

Modelling conventions:
- JavaScript strings are Lean String values; toLowerStr and trimStr below,
  structural recursions over the character list, model toLowerCase() and
  trim() (they agree with them on the ASCII range; the full Unicode case
  table is outside the model).
- JavaScript numbers holding intensities are modelled as rationals; the
  numeric coercion Number(editValue) is carried alongside the raw string as
  an Option of a rational, none standing for NaN. Rationals represent every
  decimal the operator can type (binary-float rounding of JS is outside the
  model), in particular the fractional intensities the clamp stores
  unrounded.
- JavaScript objects used as string-keyed maps are association lists with
  unique keys; key update keeps the position of an existing key and appends
  a fresh key at the end, exactly like object spread with a computed key.
- Math.random is modelled by an oracle r : String -> Nat -> Nat giving, for
  a category id and a word position, the value of
  Math.floor (Math.random () * span); the code multiplies by span and
  floors, so the oracle value is reduced modulo span.
-/

/-- The four language codes of the editor (type Language). -/
inductive Lang where
  | ru | en | es | ua
deriving DecidableEq, Repr

instance : Fintype Lang :=
  ⟨⟨[Lang.ru, Lang.en, Lang.es, Lang.ua], by decide⟩, fun l => by cases l <;> decide⟩

/-- The LANGUAGES constant, in source order ru, en, es, ua. -/
def LANGS : List Lang := [Lang.ru, Lang.en, Lang.es, Lang.ua]

/-- One dictionary word: four language strings plus an intensity (interface Word). -/
structure Word where
  ru : String
  en : String
  es : String
  ua : String
  intensity : ℚ
deriving DecidableEq, Repr

/-- Field access w[l.code] on a word. -/
def Word.get (w : Word) : Lang → String
  | Lang.ru => w.ru
  | Lang.en => w.en
  | Lang.es => w.es
  | Lang.ua => w.ua

/-- Category metadata (interface CategoryMeta). -/
structure CategoryMeta where
  id : String
  name : String
  emoji : String
  intensityMin : Int
  intensityMax : Int
deriving DecidableEq, Repr

/-- Editor dictionary state (interface DictionaryData); the words record is an
association list from category id to word list, in object key order. -/
structure DictionaryData where
  categories : List CategoryMeta
  words : List (String × List Word)
deriving DecidableEq, Repr

/-- The two dictionary flavors (type DictionaryVariant). -/
inductive DictionaryVariant where
  | adult | family
deriving DecidableEq, Repr

/-- The DEFAULT_ADULT_CATEGORIES constant. -/
def DEFAULT_ADULT_CATEGORIES : List CategoryMeta :=
  [⟨"party", "Party", "🎉", 2, 5⟩,
   ⟨"dirty", "Dirty", "🔞", 5, 8⟩,
   ⟨"extreme", "Extreme", "💀", 8, 10⟩]

/-- The DEFAULT_FAMILY_CATEGORIES constant. -/
def DEFAULT_FAMILY_CATEGORIES : List CategoryMeta :=
  [⟨"movies", "Movies", "🎬", 1, 2⟩,
   ⟨"food", "Food", "🍕", 1, 2⟩,
   ⟨"animals", "Animals", "🐱", 1, 2⟩,
   ⟨"sports", "Sports", "⚽", 1, 2⟩,
   ⟨"travel", "Travel", "✈️", 1, 2⟩,
   ⟨"professions", "Professions", "👨‍⚕️", 1, 2⟩]

/-- Default category list of a variant. -/
def defaultCats : DictionaryVariant → List CategoryMeta
  | DictionaryVariant.adult => DEFAULT_ADULT_CATEGORIES
  | DictionaryVariant.family => DEFAULT_FAMILY_CATEGORIES

/-- Lookup of a key in a string-keyed object, first match. -/
def lookupA {α : Type} : List (String × α) → String → Option α
  | [], _ => none
  | p :: rest, k => if p.1 = k then some p.2 else lookupA rest k

/-- The idiom m[k] || [] used throughout the source. -/
def getA {β : Type} (m : List (String × List β)) (k : String) : List β :=
  (lookupA m k).getD []

/-- Object update with a computed key: an existing key keeps its position and
gets the new value, a fresh key is appended at the end, as in object spread. -/
def setA {α : Type} : List (String × α) → String → α → List (String × α)
  | [], k, v => [(k, v)]
  | p :: rest, k, v => if p.1 = k then (k, v) :: rest else p :: setA rest k v

/-- Deletion of a key via rest destructuring; object keys are unique, so
dropping every pair carrying the key is the destructuring semantics. -/
def eraseA {α : Type} (m : List (String × α)) (k : String) : List (String × α) :=
  m.filter (fun p => decide (p.1 ≠ k))

/-- Object spread with two computed keys, modelling the literal
with k1 mapped to v1 and k2 mapped to v2; a repeated key keeps the later value. -/
def objSpread2 {α : Type} (m : List (String × α)) (k1 : String) (v1 : α)
    (k2 : String) (v2 : α) : List (String × α) :=
  if k2 = k1 then setA m k2 v2 else setA (setA m k1 v1) k2 v2

/-- List elements paired with their positions, starting at n; models the index
argument that forEach, map and filter callbacks receive. -/
def withIdx {α : Type} : List α → Nat → List (Nat × α)
  | [], _ => []
  | a :: rest, n => (n, a) :: withIdx rest (n + 1)

/-- One traversal position of the dictionary: a category id, an index inside
that category, and the word found there. -/
structure Entry where
  cid : String
  idx : Nat
  w : Word
deriving DecidableEq, Repr

/-- Traversal positions of one category, in index order. -/
def catEntries (d : DictionaryData) (c : CategoryMeta) : List Entry :=
  (withIdx (getA d.words c.id) 0).map (fun p => ⟨c.id, p.1, p.2⟩)

/-- All traversal positions of the dictionary, in the iteration order of the
duplicate scan: category list order, then index order inside a category. -/
def allEntries (d : DictionaryData) : List Entry :=
  (d.categories.map (catEntries d)).flatten

/-- Lowercasing toLowerCase(), character by character. -/
def toLowerStr (s : String) : String := ⟨s.data.map Char.toLower⟩

/-- Trimming trim(): leading and trailing whitespace is dropped. -/
def trimStr (s : String) : String :=
  ⟨((s.data.dropWhile Char.isWhitespace).reverse.dropWhile
      Char.isWhitespace).reverse⟩

/-- Normalisation of revision A: val = w[l.code]?.toLowerCase(). -/
def normA (s : String) : String := toLowerStr s

/-- Normalisation of revision B: val = w[l.code]?.toLowerCase().trim(). -/
def normB (s : String) : String := trimStr (toLowerStr s)

/-- One duplicate group (interface DuplicateInfo): a normalised value, a
language, and the locations where the value occurs. Revision B names the
location fields cat and idx instead of category and index; the data is the
same, so one structure serves both revisions. -/
structure DupInfo where
  word : String
  lang : Lang
  locations : List (String × Nat)
deriving DecidableEq, Repr

/-- Insertion into the seen map: push the location onto the list held for the
value if the value is already a key, otherwise append a new key, as a
JavaScript Map does. -/
def seenPush (m : List (String × List (String × Nat))) (v : String)
    (loc : String × Nat) : List (String × List (String × Nat)) :=
  if ∃ p ∈ m, p.1 = v then
    m.map (fun p => if p.1 = v then (p.1, p.2 ++ [loc]) else p)
  else m ++ [(v, [loc])]

/-- One step of the duplicate scan for a fixed language: record the entry
under its normalised value unless the value is empty (falsy). -/
def seenStep (norm : String → String) (l : Lang)
    (m : List (String × List (String × Nat))) (e : Entry) :
    List (String × List (String × Nat)) :=
  let val := norm (e.w.get l)
  if val = "" then m else seenPush m val (e.cid, e.idx)

/-- The seen map of one language after the full scan. The source fills the
four per-language maps in a single traversal; pushes into different maps are
independent, so each map equals a traversal for its own language. -/
def seenMap (norm : String → String) (d : DictionaryData) (l : Lang) :
    List (String × List (String × Nat)) :=
  (allEntries d).foldl (seenStep norm l) []

/-- The duplicate list for a given normalisation: for each language in
LANGUAGES order, each seen-map entry with two or more locations becomes a
group, in map insertion order. -/
def dupWith (norm : String → String) (d : DictionaryData) : List DupInfo :=
  (LANGS.map (fun l =>
    (seenMap norm d l).filterMap (fun p =>
      if p.2.length > 1 then some ⟨p.1, l, p.2⟩ else none))).flatten

/-- The duplicates memo of revision A (no trimming). -/
def duplicates (d : DictionaryData) : List DupInfo := dupWith normA d

/-- The duplicates memo of revision B (values are trimmed after lowercasing). -/
def duplicatesB (d : DictionaryData) : List DupInfo := dupWith normB d

/-- All locations whose field normalises to v in language l, in scan order;
empty when v is empty, since empty values are never recorded. -/
def occsW (norm : String → String) (d : DictionaryData) (l : Lang) (v : String) :
    List (String × Nat) :=
  if v = "" then []
  else ((allEntries d).filter (fun e => norm (e.w.get l) = v)).map
    (fun e => (e.cid, e.idx))

/-- Marking one location for removal: toRemove[loc.category].add(loc.index).
Every location of a duplicate group stems from the same category iteration
that initialised the table, so the key is always present; a missing key is a
no-op in the model. -/
def addRm (tr : List (String × List Nat)) (cid : String) (i : Nat) :
    List (String × List Nat) :=
  tr.map (fun p =>
    if p.1 = cid then (p.1, if i ∈ p.2 then p.2 else p.2 ++ [i]) else p)

/-- The removal table of removeDuplicates: for each duplicate group, every
location except the first is marked. -/
def rmTable (dups : List DupInfo) (cats : List CategoryMeta) :
    List (String × List Nat) :=
  dups.foldl
    (fun tr g => g.locations.tail.foldl (fun tr2 loc => addRm tr2 loc.1 loc.2) tr)
    (cats.map (fun c => (c.id, ([] : List Nat))))

/-- Duplicate removal parametrised by the duplicate list in force: each
category keeps the words whose index is not marked. The function returns the
state unchanged when no duplicates were found, as the early return does. -/
def removeDupsWith (dups : List DupInfo) (d : DictionaryData) : DictionaryData :=
  if dups.length = 0 then d
  else
    let tr := rmTable dups d.categories
    let newWords := d.categories.foldl
      (fun m c =>
        setA m c.id
          (((withIdx (getA m c.id) 0).filter
            (fun p => decide (p.1 ∉ getA tr c.id))).map (fun p => p.2)))
      d.words
    { d with words := newWords }

/-- The removeDuplicates action of revision A. -/
def removeDuplicates (d : DictionaryData) : DictionaryData :=
  removeDupsWith (duplicates d) d

/-- Legacy per-language database (type LegacyWordDatabase): for each language
an object from category id to plain string list, in key order. -/
structure Legacy where
  ru : List (String × List String)
  en : List (String × List String)
  es : List (String × List String)
  ua : List (String × List String)
deriving DecidableEq, Repr

/-- Language projection legacy[lang.code]. -/
def Legacy.get (leg : Legacy) : Lang → List (String × List String)
  | Lang.ru => leg.ru
  | Lang.en => leg.en
  | Lang.es => leg.es
  | Lang.ua => leg.ua

/-- Key sequence observed while filling the allCatIds set: the keys of each
language object, languages in LANGUAGES order. -/
def allKeys (leg : Legacy) : List String :=
  (LANGS.map (fun l => (leg.get l).map (fun p => p.1))).flatten

/-- First-occurrence deduplication, as iteration over a JavaScript Set yields
values in first-insertion order. -/
def firstDedup (l : List String) : List String :=
  l.foldl (fun acc v => if v ∈ acc then acc else acc ++ [v]) []

/-- Capitalisation catId.charAt(0).toUpperCase() + catId.slice(1). -/
def capitalize (s : String) : String :=
  match s.data with
  | [] => ""
  | c :: rest => ⟨c.toUpper :: rest⟩

/-- The category record convertLegacyToNew pushes for a category id found in
the legacy data but absent from the defaults. -/
def mkExtraCat (cid : String) : CategoryMeta :=
  ⟨cid, capitalize cid, "📁", 1, 10⟩

/-- Appending a discovered category unless a category with that id exists. -/
def addExtra (cats : List CategoryMeta) (cid : String) : List CategoryMeta :=
  if ∃ c ∈ cats, c.id = cid then cats else cats ++ [mkExtraCat cid]

/-- The word list convertLegacyToNew builds for one category: the per-language
lists are read up to the maximum length, a missing entry becomes the empty
string, and the intensity is random in the category range (oracle r stands
for the floored random draw and is reduced modulo the range span). -/
def buildCatWords (leg : Legacy) (c : CategoryMeta) (r : String → Nat → Nat) :
    List Word :=
  let ruW := getA (leg.get Lang.ru) c.id
  let enW := getA (leg.get Lang.en) c.id
  let esW := getA (leg.get Lang.es) c.id
  let uaW := getA (leg.get Lang.ua) c.id
  let maxLen := max (max (max ruW.length enW.length) esW.length) uaW.length
  (List.range maxLen).map (fun i =>
    ⟨ruW.getD i "", enW.getD i "", esW.getD i "", uaW.getD i "",
     ((c.intensityMin + (r c.id i : Int) %
       (c.intensityMax - c.intensityMin + 1) : Int) : ℚ)⟩)

/-- Conversion from the legacy shape to the editor shape (convertLegacyToNew). -/
def convertLegacyToNew (leg : Legacy) (variant : DictionaryVariant)
    (r : String → Nat → Nat) : DictionaryData :=
  let cats := (firstDedup (allKeys leg)).foldl addExtra (defaultCats variant)
  ⟨cats, cats.foldl (fun m c => setA m c.id (buildCatWords leg c r)) []⟩

/-- Conversion back to the legacy shape (convertNewToLegacy): for each
category, each language list is the field projection with empty (falsy)
strings filtered out. -/
def convertNewToLegacy (d : DictionaryData) : Legacy :=
  d.categories.foldl
    (fun leg c =>
      let cws := getA d.words c.id
      ⟨setA leg.ru c.id ((cws.map (fun w => w.ru)).filter (fun s => decide (s ≠ ""))),
       setA leg.en c.id ((cws.map (fun w => w.en)).filter (fun s => decide (s ≠ ""))),
       setA leg.es c.id ((cws.map (fun w => w.es)).filter (fun s => decide (s ≠ ""))),
       setA leg.ua c.id ((cws.map (fun w => w.ua)).filter (fun s => decide (s ≠ "")))⟩)
    ⟨[], [], [], []⟩

/-- Sort direction of the intensity sort toggle. -/
inductive SortDir where
  | asc | desc
deriving DecidableEq, Repr

/-- Substring test s.includes(sub) on the underlying character lists. -/
def hasSub (s sub : String) : Bool :=
  (List.range (s.data.length + 1)).any
    (fun i => decide ((s.data.drop i).take sub.data.length = sub.data))

/-- Search predicate of the view: some language field contains the lowercased
query (the query reaches the filter already lowercased). -/
def matchesQuery (w : Word) (ql : String) : Bool :=
  hasSub (toLowerStr w.ru) ql || hasSub (toLowerStr w.en) ql ||
  hasSub (toLowerStr w.es) ql || hasSub (toLowerStr w.ua) ql

/-- The currentWords memo: words of the selected category tagged with their
original index _idx, filtered by the intensity range, filtered by the search
query when it is nonempty, and stably sorted by intensity when a sort
direction is set (Array.prototype.sort is stable). -/
def viewOf (d : DictionaryData) (selCat : String) (fLo fHi : ℚ) (q : String)
    (sortBy : Option SortDir) : List (Word × Nat) :=
  let ws0 := (withIdx (getA d.words selCat) 0).map (fun p => (p.2, p.1))
  let ws1 := ws0.filter (fun p => decide (fLo ≤ p.1.intensity ∧ p.1.intensity ≤ fHi))
  let ws2 := if q = "" then ws1 else ws1.filter (fun p => matchesQuery p.1 (toLowerStr q))
  match sortBy with
  | none => ws2
  | some SortDir.asc => ws2.mergeSort (fun a b => decide (a.1.intensity ≤ b.1.intensity))
  | some SortDir.desc => ws2.mergeSort (fun a b => decide (b.1.intensity ≤ a.1.intensity))

/-- Edit buffer value: the raw string together with its numeric coercion
Number(raw), a rational, none standing for NaN; a fractional input such as
2.5 is representable and flows unrounded into the state. -/
structure EditVal where
  raw : String
  num : Option ℚ

/-- A word field reachable from the edit grid: a language column or intensity. -/
inductive WField where
  | lang (l : Lang)
  | intensity
deriving DecidableEq, Repr

/-- The fallback Number(editValue) || 5: NaN and 0 are falsy and give 5. -/
def numOr5 : Option ℚ → ℚ
  | none => 5
  | some v => if v = 0 then 5 else v

/-- The clamp Math.min(10, Math.max(1, x)); it bounds the value but does
not round it, so a fractional input stays fractional. -/
def clamp10 (x : ℚ) : ℚ := min 10 (max 1 x)

/-- Writing the edited field: a language column takes the raw string, the
intensity column takes the clamped numeric value. -/
def Word.setF (w : Word) (f : WField) (ev : EditVal) : Word :=
  match f with
  | WField.lang Lang.ru => { w with ru := ev.raw }
  | WField.lang Lang.en => { w with en := ev.raw }
  | WField.lang Lang.es => { w with es := ev.raw }
  | WField.lang Lang.ua => { w with ua := ev.raw }
  | WField.intensity => { w with intensity := clamp10 (numOr5 ev.num) }

/-- Placeholder word used only to give total lookups a value; the edit path
never reads it because the edited view row exists. -/
def dWord : Word := ⟨"", "", "", "", 5⟩

/-- The saveEdit action: the edited row of the filtered and sorted view names
its original index _idx, and the word at that index in the selected category
gets the edited field replaced. -/
def saveEdit (d : DictionaryData) (selCat : String) (fLo fHi : ℚ) (q : String)
    (sortBy : Option SortDir) (wordIdx : Nat) (f : WField) (ev : EditVal) :
    DictionaryData :=
  let view := viewOf d selCat fLo fHi q sortBy
  let actualIdx := (view.getD wordIdx (dWord, 0)).2
  let ws := getA d.words selCat
  { d with words := (setA d.words selCat
      (ws.set actualIdx ((ws.getD actualIdx dWord).setF f ev))) }

/-- Collapsing of whitespace runs to single underscores, the replace of
name.replace with pattern backslash-s-plus and replacement underscore. -/
def collapseWs : List Char → Bool → List Char
  | [], _ => []
  | c :: rest, inRun =>
    if c.isWhitespace then
      (if inRun then [] else ['_']) ++ collapseWs rest true
    else c :: collapseWs rest false

/-- Character class of the second replace: lowercase latin, digits,
underscore and cyrillic letters survive, everything else is dropped (the
case-insensitive flag also admits uppercase cyrillic). -/
def keepChar (c : Char) : Bool :=
  (decide ('a' ≤ c) && decide (c ≤ 'z')) ||
  (decide ('0' ≤ c) && decide (c ≤ '9')) ||
  (c = '_' : Bool) ||
  (decide ('а' ≤ c) && decide (c ≤ 'я')) || (c = 'ё' : Bool) ||
  (decide ('А' ≤ c) && decide (c ≤ 'Я')) || (c = 'Ё' : Bool)

/-- Category id derived from the typed name in handleAddCategory. -/
def sanitizeId (name : String) : String :=
  ⟨(collapseWs (toLowerStr name).data false).filter keepChar⟩

/-- The handleAddCategory action: an empty name or an already existing id
leaves the state unchanged; otherwise the category is appended and an empty
word list is created under the new id. -/
def handleAddCategory (d : DictionaryData) (name emoji : String) (lo hi : Int) :
    DictionaryData :=
  if name = "" then d
  else
    let id := sanitizeId name
    if ∃ c ∈ d.categories, c.id = id then d
    else ⟨d.categories ++ [⟨id, name, emoji, lo, hi⟩], setA d.words id []⟩

/-- The handleDeleteCategory action (confirm accepted): the category leaves
the list and its key leaves the words object. -/
def handleDeleteCategory (d : DictionaryData) (catId : String) : DictionaryData :=
  ⟨d.categories.filter (fun c => decide (c.id ≠ catId)), eraseA d.words catId⟩

/-- The handleDeleteWord action: splice(idx, 1) on the selected category list.
The index always comes from a rendered row, hence is in range; an
out-of-range index is a no-op, like splice past the end. -/
def handleDeleteWord (d : DictionaryData) (selCat : String) (idx : Nat) :
    DictionaryData :=
  { d with words := (setA d.words selCat ((getA d.words selCat).eraseIdx idx)) }

/-- The handleBulkDelete action of revision B (confirm accepted): the words
whose index belongs to the selection leave the selected category. -/
def handleBulkDelete (d : DictionaryData) (selCat : String) (sel : List Nat) :
    DictionaryData :=
  if sel = [] then d
  else { d with words := (setA d.words selCat
      (((withIdx (getA d.words selCat) 0).filter
        (fun p => decide (p.1 ∉ sel))).map (fun p => p.2))) }

/-- The moveSelectedToCategory action: the selected rows of the source
category are split out in order and appended to the target list; an empty
selection is the early return. -/
def moveSelectedToCategory (d : DictionaryData) (selCat targetCat : String)
    (sel : List Nat) : DictionaryData :=
  if sel = [] then d
  else
    let src := withIdx (getA d.words selCat) 0
    let toMove := (src.filter (fun p => decide (p.1 ∈ sel))).map (fun p => p.2)
    let remaining := (src.filter (fun p => decide (p.1 ∉ sel))).map (fun p => p.2)
    { d with words := (objSpread2 d.words selCat remaining targetCat
        (getA d.words targetCat ++ toMove)) }

/-- The handleAddGeneratedWords action of revision B: the generated words
whose index is in the generated selection are appended, unvalidated, to the
selected category; an empty generation is the early return. -/
def handleAddGeneratedWords (d : DictionaryData) (selCat : String)
    (gen : List Word) (genSel : List Nat) : DictionaryData :=
  if gen = [] then d
  else { d with words := (setA d.words selCat
      (getA d.words selCat ++
        ((withIdx gen 0).filter (fun p => decide (p.1 ∈ genSel))).map (fun p => p.2))) }

/-- Intensity invariant of a single word as the specification states it: an
integer (a rational with denominator one) between 1 and 10. -/
def WordInv (w : Word) : Prop :=
  1 ≤ w.intensity ∧ w.intensity ≤ 10 ∧ w.intensity.den = 1

instance : DecidablePred WordInv := fun w => by unfold WordInv; infer_instance

/-- Intensity invariant over every word stored in the state. -/
def DictWordsInv (d : DictionaryData) : Prop :=
  ∀ p ∈ d.words, ∀ w ∈ p.2, WordInv w

instance : DecidablePred DictWordsInv := fun d => by unfold DictWordsInv; infer_instance

/-- Key invariant: the words object holds exactly the ids of the category
list, as sets. -/
def keyInv (d : DictionaryData) : Prop :=
  (∀ p ∈ d.words, ∃ c ∈ d.categories, c.id = p.1) ∧
  (∀ c ∈ d.categories, ∃ p ∈ d.words, p.1 = c.id)

instance : DecidablePred keyInv := fun d => by unfold keyInv; infer_instance

/-- Ids of the category list. -/
def catIds (d : DictionaryData) : List String := d.categories.map (fun c => c.id)

/-- Multiplicity of one word over the whole words object. -/
def countD (m : List (String × List Word)) (w : Word) : Nat :=
  (m.map (fun p => p.2.count w)).sum

/-! Basic lemmas about the object model. -/

/-- Keys of an association object. -/
def keysA {α : Type} (m : List (String × α)) : List String := m.map (fun p => p.1)

theorem lookupA_setA {α : Type} (m : List (String × α)) (k : String) (v : α)
    (k' : String) :
    lookupA (setA m k v) k' = if k' = k then some v else lookupA m k' := by
  induction m with
  | nil =>
    rcases eq_or_ne k' k with rfl | h
    · simp [setA, lookupA]
    · simp [setA, lookupA, h, Ne.symm h]
  | cons p rest ih =>
    rcases eq_or_ne p.1 k with hpk | hpk
    · rcases eq_or_ne k' k with rfl | h
      · simp [setA, lookupA, hpk]
      · simp [setA, lookupA, hpk, h, Ne.symm h]
    · rcases eq_or_ne k' p.1 with rfl | h
      · simp [setA, lookupA, hpk]
      · simp [setA, lookupA, hpk, h, Ne.symm h, ih]

theorem getA_setA {β : Type} (m : List (String × List β)) (k v k') :
    getA (setA m k v) k' = if k' = k then v else getA m k' := by
  by_cases h : k' = k <;> simp [getA, lookupA_setA, h]

theorem mem_keysA_iff {α : Type} (m : List (String × α)) (k : String) :
    k ∈ keysA m ↔ ∃ v, lookupA m k = some v := by
  induction m with
  | nil => simp [keysA, lookupA]
  | cons p rest ih =>
    by_cases h : p.1 = k
    · simp [keysA, lookupA, h]
    · simp only [keysA, List.map_cons, List.mem_cons, lookupA, h, if_false]
      constructor
      · intro hc
        rcases hc with hc | hc
        · exact absurd hc.symm h
        · exact ih.mp hc
      · intro hc
        exact Or.inr (ih.mpr hc)

theorem mem_keysA_setA {α : Type} (m : List (String × α)) (k v k') :
    k' ∈ keysA (setA m k v) ↔ k' = k ∨ k' ∈ keysA m := by
  rw [mem_keysA_iff, mem_keysA_iff (k := k'), lookupA_setA]
  by_cases h : k' = k <;> simp [h]

theorem mem_setA {α : Type} (m : List (String × α)) (k v p) (hp : p ∈ setA m k v) :
    p = (k, v) ∨ p ∈ m := by
  induction m with
  | nil => simpa [setA] using hp
  | cons q rest ih =>
    by_cases h : q.1 = k
    · simp only [setA, h, if_true, List.mem_cons] at hp
      rcases hp with hp | hp
      · exact Or.inl hp
      · exact Or.inr (List.mem_cons_of_mem _ hp)
    · simp only [setA, h, if_false, List.mem_cons] at hp
      rcases hp with hp | hp
      · exact Or.inr (hp ▸ List.mem_cons_self _ _)
      · rcases ih hp with h2 | h2
        · exact Or.inl h2
        · exact Or.inr (List.mem_cons_of_mem _ h2)

theorem lookupA_eraseA {α : Type} (m : List (String × α)) (k k' : String) :
    lookupA (eraseA m k) k' = if k' = k then none else lookupA m k' := by
  induction m with
  | nil =>
    rcases eq_or_ne k' k with rfl | h
    · simp [eraseA, lookupA]
    · simp [eraseA, lookupA, h]
  | cons p rest ih =>
    rcases eq_or_ne p.1 k with hpk | hpk
    · have h1 : eraseA (p :: rest) k = eraseA rest k := by
        simp [eraseA, List.filter_cons, hpk]
      rw [h1, ih]
      rcases eq_or_ne k' k with rfl | h
      · simp
      · have hne : p.1 ≠ k' := fun hc => h (hpk.symm.trans hc).symm
        simp [lookupA, h, hne]
    · have h1 : eraseA (p :: rest) k = p :: eraseA rest k := by
        simp [eraseA, List.filter_cons, hpk]
      rw [h1]
      rcases eq_or_ne p.1 k' with hpe | hpe
      · have hk : k' ≠ k := fun hc => hpk (hpe.trans hc)
        simp [lookupA, hpe, hk]
      · simp [lookupA, hpe, ih]

theorem mem_eraseA {α : Type} (m : List (String × α)) (k : String) (p : String × α)
    (hp : p ∈ eraseA m k) : p ∈ m ∧ p.1 ≠ k := by
  have := List.mem_filter.mp hp
  exact ⟨this.1, by simpa using this.2⟩

theorem countD_setA (m : List (String × List Word)) (k : String) (v : List Word)
    (w : Word) :
    countD (setA m k v) w + (getA m k).count w = countD m w + v.count w := by
  induction m with
  | nil => simp [setA, countD, getA, lookupA]
  | cons p rest ih =>
    by_cases h : p.1 = k
    · simp [setA, countD, getA, lookupA, h]
      omega
    · simp only [setA, h, if_false, countD, List.map_cons, List.sum_cons, getA,
        lookupA, if_false]
      have := ih
      simp only [countD, getA] at this
      omega

theorem withIdx_map_snd {α : Type} (l : List α) (n : Nat) :
    (withIdx l n).map (fun p => p.2) = l := by
  induction l generalizing n with
  | nil => simp [withIdx]
  | cons a rest ih => simp [withIdx, ih]

theorem mem_withIdx {α : Type} (l : List α) (n : Nat) (i : Nat) (a : α) :
    (i, a) ∈ withIdx l n ↔ n ≤ i ∧ l[i - n]? = some a := by
  induction l generalizing n with
  | nil => simp [withIdx]
  | cons b rest ih =>
    simp only [withIdx, List.mem_cons, Prod.mk.injEq, ih]
    constructor
    · intro hc
      rcases hc with ⟨rfl, rfl⟩ | ⟨h1, h2⟩
      · simp
      · refine ⟨by omega, ?_⟩
        have : i - n = (i - (n + 1)) + 1 := by omega
        rw [this]
        simpa using h2
    · intro ⟨h1, h2⟩
      rcases Nat.eq_or_lt_of_le h1 with rfl | hlt
      · simp at h2
        exact Or.inl ⟨rfl, h2.symm⟩
      · right
        refine ⟨by omega, ?_⟩
        have : i - n = (i - (n + 1)) + 1 := by omega
        rw [this] at h2
        simpa using h2

theorem mem_withIdx_zero {α : Type} (l : List α) (i : Nat) (a : α) :
    (i, a) ∈ withIdx l 0 ↔ l[i]? = some a := by
  simp [mem_withIdx]

theorem withIdx_fst_lt {α : Type} (l : List α) (n : Nat) (p : Nat × α)
    (hp : p ∈ withIdx l n) : n ≤ p.1 ∧ p.1 < n + l.length := by
  obtain ⟨i, a⟩ := p
  rw [mem_withIdx] at hp
  have := hp.2
  have hlt : i - n < l.length := by
    by_contra hge
    rw [List.getElem?_eq_none (by omega)] at this
    exact Option.noConfusion this
  exact ⟨hp.1, by omega⟩

theorem withIdx_pairwise {α : Type} (l : List α) (n : Nat) :
    (withIdx l n).Pairwise (fun a b => a.1 < b.1) := by
  induction l generalizing n with
  | nil => simp [withIdx]
  | cons a rest ih =>
    simp only [withIdx, List.pairwise_cons]
    refine ⟨fun q hq => ?_, ih (n + 1)⟩
    have := (withIdx_fst_lt rest (n + 1) q hq).1
    omega

theorem countP_withIdx {α : Type} (l : List α) (n : Nat) (q : α → Bool) :
    (withIdx l n).countP (fun p => q p.2) = l.countP q := by
  induction l generalizing n with
  | nil => simp [withIdx]
  | cons a rest ih =>
    by_cases h : q a <;> simp [withIdx, List.countP_cons, h, ih]

theorem firstDedup_go {α : Type} [DecidableEq α] (l acc : List α) :
    (∀ v, v ∈ l.foldl (fun a x => if x ∈ a then a else a ++ [x]) acc ↔
      v ∈ acc ∨ v ∈ l) ∧
    (acc.Nodup → (l.foldl (fun a x => if x ∈ a then a else a ++ [x]) acc).Nodup) := by
  induction l generalizing acc with
  | nil => simp
  | cons x rest ih =>
    by_cases hx : x ∈ acc
    · constructor
      · intro v
        simp only [List.foldl_cons, if_pos hx, (ih acc).1 v, List.mem_cons]
        constructor
        · intro hc
          rcases hc with hc | hc
          · exact Or.inl hc
          · exact Or.inr (Or.inr hc)
        · intro hc
          rcases hc with hc | hc | hc
          · exact Or.inl hc
          · exact Or.inl (hc ▸ hx)
          · exact Or.inr hc
      · intro hacc
        simpa [List.foldl_cons, if_pos hx] using (ih acc).2 hacc
    · constructor
      · intro v
        simp only [List.foldl_cons, if_neg hx, (ih (acc ++ [x])).1 v,
          List.mem_append, List.mem_singleton, List.mem_cons]
        tauto
      · intro hacc
        simp only [List.foldl_cons, if_neg hx]
        exact (ih (acc ++ [x])).2 (by simp [List.nodup_append, hacc, hx])

theorem mem_firstDedup (l : List String) (v : String) :
    v ∈ firstDedup l ↔ v ∈ l := by
  have := (firstDedup_go l []).1 v
  simpa [firstDedup] using this

theorem nodup_firstDedup (l : List String) : (firstDedup l).Nodup := by
  have := (firstDedup_go l []).2
  simpa [firstDedup] using this

/-- Lookup distributes over concatenation, first object first. -/
theorem lookupA_append {α : Type} (m m' : List (String × α)) (k : String) :
    lookupA (m ++ m') k =
      match lookupA m k with
      | some v => some v
      | none => lookupA m' k := by
  induction m with
  | nil => simp [lookupA]
  | cons p rest ih =>
    rcases eq_or_ne p.1 k with hpk | hpk
    · simp [lookupA, hpk]
    · simp [lookupA, hpk, ih]

/-- Lookup through a value rewrite that touches only one key. -/
theorem lookupA_mapVal {α : Type} (m : List (String × α)) (k : String)
    (g : α → α) (k' : String) :
    lookupA (m.map (fun p => if p.1 = k then (p.1, g p.2) else p)) k' =
      if k' = k then (lookupA m k).map g else lookupA m k' := by
  induction m with
  | nil => by_cases h : k' = k <;> simp [lookupA, h]
  | cons p rest ih =>
    rcases eq_or_ne p.1 k with hpk | hpk
    · rcases eq_or_ne k' k with rfl | h
      · simp [lookupA, hpk]
      · have hne : p.1 ≠ k' := fun hc => h (hpk.symm.trans hc).symm
        simp [lookupA, hpk, hne, h, Ne.symm h, ih]
    · rcases eq_or_ne p.1 k' with hpe | hpe
      · have hk : k' ≠ k := fun hc => hpk (hpe.trans hc)
        simp [lookupA, hpk, hpe, hk]
      · simp [lookupA, hpk, hpe, ih]

theorem keysA_mapVal {α : Type} (m : List (String × α)) (k : String) (g : α → α) :
    keysA (m.map (fun p => if p.1 = k then (p.1, g p.2) else p)) = keysA m := by
  induction m with
  | nil => simp [keysA]
  | cons p rest ih =>
    rcases eq_or_ne p.1 k with hpk | hpk <;>
      simpa [keysA, hpk] using ih

theorem lookupA_seenPush_self (m : List (String × List (String × Nat)))
    (v : String) (loc : String × Nat) :
    lookupA (seenPush m v loc) v = some (((lookupA m v).getD []) ++ [loc]) := by
  unfold seenPush
  by_cases h : ∃ p ∈ m, p.1 = v
  · have hmap := lookupA_mapVal m v (fun locs => locs ++ [loc]) v
    rw [if_pos h, hmap, if_pos rfl]
    obtain ⟨p, hpm, hpv⟩ := h
    have : ∃ w, lookupA m v = some w := by
      rw [← mem_keysA_iff]
      exact hpv ▸ List.mem_map_of_mem (fun q => q.1) hpm
    obtain ⟨w, hw⟩ := this
    simp [hw]
  · rw [if_neg h, lookupA_append]
    have hnone : lookupA m v = none := by
      by_contra hc
      obtain ⟨w, hw⟩ := Option.ne_none_iff_exists'.mp hc
      have hv : v ∈ keysA m := (mem_keysA_iff m v).mpr ⟨w, hw⟩
      obtain ⟨p, hpm, hpv⟩ := List.mem_map.mp hv
      exact h ⟨p, hpm, hpv⟩
    simp [hnone, lookupA]

theorem lookupA_seenPush_ne (m : List (String × List (String × Nat)))
    (v : String) (loc : String × Nat) (v' : String) (h : v' ≠ v) :
    lookupA (seenPush m v loc) v' = lookupA m v' := by
  unfold seenPush
  by_cases hc : ∃ p ∈ m, p.1 = v
  · have hmap := lookupA_mapVal m v (fun locs => locs ++ [loc]) v'
    rw [if_pos hc, hmap, if_neg h]
  · rw [if_neg hc, lookupA_append]
    cases hl : lookupA m v' with
    | some w => simp
    | none => simp [lookupA, Ne.symm h]

theorem keysA_seenPush_nodup (m : List (String × List (String × Nat)))
    (v : String) (loc : String × Nat) (h : (keysA m).Nodup) :
    (keysA (seenPush m v loc)).Nodup := by
  unfold seenPush
  by_cases hc : ∃ p ∈ m, p.1 = v
  · rw [if_pos hc]
    have := keysA_mapVal m v (fun locs => locs ++ [loc])
    rw [this]
    exact h
  · rw [if_neg hc]
    have hv : v ∉ keysA m := by
      intro hmem
      obtain ⟨p, hpm, hpv⟩ := List.mem_map.mp hmem
      exact hc ⟨p, hpm, hpv⟩
    simp only [keysA, List.map_append, List.map_cons, List.map_nil]
    rw [List.nodup_append]
    refine ⟨h, List.nodup_singleton v, ?_⟩
    intro a ha hb
    simp only [List.mem_singleton] at hb
    exact hv (hb ▸ ha)

/-- Occurrence list of a value over an arbitrary entry list. -/
def occsE (norm : String → String) (l : Lang) (v : String) (es : List Entry) :
    List (String × Nat) :=
  if v = "" then []
  else (es.filter (fun e => norm (e.w.get l) = v)).map (fun e => (e.cid, e.idx))

theorem occsW_eq_occsE (norm : String → String) (d : DictionaryData) (l : Lang)
    (v : String) : occsW norm d l v = occsE norm l v (allEntries d) := rfl

theorem occsE_append_singleton (norm : String → String) (l : Lang) (v : String)
    (es : List Entry) (e : Entry) :
    occsE norm l v (es ++ [e]) =
      occsE norm l v es ++
        (if v ≠ "" ∧ norm (e.w.get l) = v then [(e.cid, e.idx)] else []) := by
  unfold occsE
  by_cases hv : v = ""
  · simp [hv]
  · simp only [if_neg hv, List.filter_append, List.map_append]
    congr 1
    by_cases he : norm (e.w.get l) = v
    · simp [he, hv]
    · simp [he, hv]

theorem seenF_char (norm : String → String) (l : Lang) (es : List Entry) :
    (keysA (es.foldl (seenStep norm l) [])).Nodup ∧
    ∀ v, lookupA (es.foldl (seenStep norm l) []) v =
      if occsE norm l v es = [] then none else some (occsE norm l v es) := by
  induction es using List.reverseRecOn with
  | nil =>
    refine ⟨by simp [keysA], fun v => ?_⟩
    unfold occsE
    by_cases hv : v = "" <;> simp [hv, lookupA]
  | append_singleton es e ih =>
    rw [List.foldl_append, List.foldl_cons, List.foldl_nil]
    set m := es.foldl (seenStep norm l) [] with hm
    by_cases hval : norm (e.w.get l) = ""
    · have hstep : seenStep norm l m e = m := by simp [seenStep, hval]
      rw [hstep]
      refine ⟨ih.1, fun v => ?_⟩
      have : occsE norm l v (es ++ [e]) = occsE norm l v es := by
        rw [occsE_append_singleton]
        have : ¬(v ≠ "" ∧ norm (e.w.get l) = v) := by
          rintro ⟨hv, hev⟩
          exact hv (hval ▸ hev).symm
        simp [this]
      rw [this]
      exact ih.2 v
    · have hstep : seenStep norm l m e =
        seenPush m (norm (e.w.get l)) (e.cid, e.idx) := by
        simp [seenStep, hval]
      rw [hstep]
      refine ⟨keysA_seenPush_nodup m _ _ ih.1, fun v => ?_⟩
      rcases eq_or_ne v (norm (e.w.get l)) with rfl | hv
      · rw [lookupA_seenPush_self]
        have hocc : occsE norm l (norm (e.w.get l)) (es ++ [e]) =
            occsE norm l (norm (e.w.get l)) es ++ [(e.cid, e.idx)] := by
          rw [occsE_append_singleton]
          simp [hval]
        rw [hocc]
        have hgd : (lookupA m (norm (e.w.get l))).getD [] =
            occsE norm l (norm (e.w.get l)) es := by
          rw [ih.2]
          by_cases h0 : occsE norm l (norm (e.w.get l)) es = [] <;> simp [h0]
        rw [hgd]
        simp
      · rw [lookupA_seenPush_ne m _ _ v hv]
        have : occsE norm l v (es ++ [e]) = occsE norm l v es := by
          rw [occsE_append_singleton]
          have : ¬(v ≠ "" ∧ norm (e.w.get l) = v) := by
            rintro ⟨_, hev⟩
            exact hv hev.symm
          simp [this]
        rw [this]
        exact ih.2 v

theorem seenMap_nodupKeys (norm : String → String) (d : DictionaryData) (l : Lang) :
    (keysA (seenMap norm d l)).Nodup :=
  (seenF_char norm l (allEntries d)).1

theorem lookupA_seenMap (norm : String → String) (d : DictionaryData) (l : Lang)
    (v : String) :
    lookupA (seenMap norm d l) v =
      if occsW norm d l v = [] then none else some (occsW norm d l v) := by
  rw [occsW_eq_occsE]
  exact (seenF_char norm l (allEntries d)).2 v

theorem mem_assoc_of_nodup {α : Type} (m : List (String × α))
    (h : (keysA m).Nodup) (p : String × α) :
    p ∈ m ↔ lookupA m p.1 = some p.2 := by
  induction m with
  | nil => simp [lookupA]
  | cons q rest ih =>
    rw [keysA, List.map_cons, List.nodup_cons] at h
    obtain ⟨hq, hrest⟩ := h
    constructor
    · intro hp
      rcases List.mem_cons.mp hp with rfl | hp2
      · simp [lookupA]
      · have hne : q.1 ≠ p.1 := fun hc =>
          hq (hc ▸ List.mem_map_of_mem (fun x => x.1) hp2)
        simp only [lookupA, if_neg hne]
        exact (ih hrest).mp hp2
    · intro hp
      rcases eq_or_ne q.1 p.1 with he | hne
      · simp only [lookupA, if_pos he] at hp
        have h2 := Option.some.inj hp
        have hpq : p = q := Prod.ext he.symm h2.symm
        exact hpq ▸ List.mem_cons_self q rest
      · simp only [lookupA, if_neg hne] at hp
        exact List.mem_cons_of_mem _ ((ih hrest).mpr hp)

theorem lang_mem_LANGS (l : Lang) : l ∈ LANGS := by
  cases l <;> simp [LANGS]

/-- Membership characterisation of the duplicate list: a group is reported
exactly for a value whose occurrence list has at least two entries, and the
reported locations are exactly that occurrence list. -/
theorem mem_dupWith (norm : String → String) (d : DictionaryData) (g : DupInfo) :
    g ∈ dupWith norm d ↔
      g.locations = occsW norm d g.lang g.word ∧ 2 ≤ g.locations.length := by
  unfold dupWith
  rw [List.mem_flatten]
  constructor
  · rintro ⟨gl, hgl, hg⟩
    obtain ⟨l, _, rfl⟩ := List.mem_map.mp hgl
    obtain ⟨p, hp, hpg⟩ := List.mem_filterMap.mp hg
    by_cases hlen : p.2.length > 1
    · rw [if_pos hlen] at hpg
      obtain rfl := Option.some.inj hpg
      have hlook := (mem_assoc_of_nodup _ (seenMap_nodupKeys norm d l) p).mp hp
      rw [lookupA_seenMap] at hlook
      by_cases h0 : occsW norm d l p.1 = []
      · rw [if_pos h0] at hlook
        exact absurd hlook (by simp)
      · rw [if_neg h0] at hlook
        have := Option.some.inj hlook
        refine ⟨this.symm, ?_⟩
        show 2 ≤ p.2.length
        omega
    · rw [if_neg hlen] at hpg
      exact absurd hpg (by simp)
  · rintro ⟨hloc, hlen⟩
    refine ⟨_, List.mem_map.mpr ⟨g.lang, lang_mem_LANGS g.lang, rfl⟩, ?_⟩
    refine List.mem_filterMap.mpr ⟨(g.word, g.locations), ?_, ?_⟩
    · refine (mem_assoc_of_nodup _ (seenMap_nodupKeys norm d g.lang) _).mpr ?_
      rw [lookupA_seenMap]
      have h0 : occsW norm d g.lang g.word ≠ [] := by
        intro hc
        rw [hloc, hc] at hlen
        simp at hlen
      rw [if_neg h0, ← hloc]
    · have : (g.word, g.locations).2.length > 1 := by
        show g.locations.length > 1
        omega
      rw [if_pos this]

/-- Indices inside one category whose field normalises to the value, in
ascending index order. -/
def catOccIdxs (norm : String → String) (d : DictionaryData) (l : Lang)
    (v : String) (c : CategoryMeta) : List Nat :=
  ((withIdx (getA d.words c.id) 0).filter
    (fun p => norm (p.2.get l) = v)).map (fun p => p.1)

/-- The occurrence list decomposes category by category, in category list
order, with ascending indices inside each category. -/
theorem occsW_structure (norm : String → String) (d : DictionaryData) (l : Lang)
    (v : String) (hv : v ≠ "") :
    occsW norm d l v =
      (d.categories.map (fun c =>
        (catOccIdxs norm d l v c).map (fun i => (c.id, i)))).flatten := by
  unfold occsW allEntries
  rw [if_neg hv, List.filter_flatten, List.map_flatten, List.map_map, List.map_map]
  congr 1
  apply List.map_eq_map_iff.mpr
  intro c _
  simp only [Function.comp_apply]
  unfold catEntries catOccIdxs
  rw [List.filter_map, List.map_map, List.map_map]
  rfl

theorem catOccIdxs_pairwise (norm : String → String) (d : DictionaryData)
    (l : Lang) (v : String) (c : CategoryMeta) :
    (catOccIdxs norm d l v c).Pairwise (fun a b => a < b) := by
  unfold catOccIdxs
  refine List.Pairwise.map _ (fun a b h => h) ?_
  exact List.Pairwise.filter _ (withIdx_pairwise _ 0)

/-- Claim C1: the duplicate list of revision A contains an entry for a pair
of a value and a language exactly when the lowercased value of that language
field is non-empty and occurs at two or more locations across the whole
dictionary; the entry lists exactly those locations, decomposed category by
category in category list order, with strictly ascending indices inside each
category. -/
theorem claim_C1 (d : DictionaryData) :
    (∀ (v : String) (l : Lang),
      (∃ g ∈ duplicates d, g.word = v ∧ g.lang = l) ↔
        (v ≠ "" ∧ 2 ≤ (occsW normA d l v).length)) ∧
    (∀ g ∈ duplicates d,
      g.locations = occsW normA d g.lang g.word ∧
      g.locations = (d.categories.map (fun c =>
        (catOccIdxs normA d g.lang g.word c).map (fun i => (c.id, i)))).flatten ∧
      ∀ c, (catOccIdxs normA d g.lang g.word c).Pairwise (fun a b => a < b)) := by
  constructor
  · intro v l
    constructor
    · rintro ⟨g, hg, rfl, rfl⟩
      obtain ⟨hloc, hlen⟩ := (mem_dupWith normA d g).mp hg
      have hv : g.word ≠ "" := by
        intro hc
        rw [hloc] at hlen
        unfold occsW at hlen
        rw [if_pos hc] at hlen
        simp at hlen
      exact ⟨hv, hloc ▸ hlen⟩
    · rintro ⟨hv, hlen⟩
      refine ⟨⟨v, l, occsW normA d l v⟩, ?_, rfl, rfl⟩
      exact (mem_dupWith normA d _).mpr ⟨rfl, hlen⟩
  · intro g hg
    obtain ⟨hloc, hlen⟩ := (mem_dupWith normA d g).mp hg
    have hv : g.word ≠ "" := by
      intro hc
      rw [hloc] at hlen
      unfold occsW at hlen
      rw [if_pos hc] at hlen
      simp at hlen
    exact ⟨hloc, hloc.trans (occsW_structure normA d g.lang g.word hv),
      fun c => catOccIdxs_pairwise normA d g.lang g.word c⟩

theorem foldl_congr_entries {σ : Type} (es : List Entry) (f g : σ → Entry → σ)
    (m : σ) (h : ∀ e ∈ es, ∀ m', f m' e = g m' e) :
    es.foldl f m = es.foldl g m := by
  induction es generalizing m with
  | nil => rfl
  | cons e rest ih =>
    rw [List.foldl_cons, List.foldl_cons, h e (List.mem_cons_self e rest) m]
    exact ih _ (fun x hx m' => h x (List.mem_cons_of_mem e hx) m')

/-- Two normalisations that agree on every field value stored in the
dictionary produce the same duplicate list. -/
theorem dupWith_congr (n1 n2 : String → String) (d : DictionaryData)
    (h : ∀ e ∈ allEntries d, ∀ l : Lang, n1 (e.w.get l) = n2 (e.w.get l)) :
    dupWith n1 d = dupWith n2 d := by
  unfold dupWith
  congr 1
  apply List.map_eq_map_iff.mpr
  intro l _
  have hseen : seenMap n1 d l = seenMap n2 d l := by
    unfold seenMap
    apply foldl_congr_entries
    intro e he m'
    unfold seenStep
    rw [h e he l]
  rw [hseen]

theorem lookupA_mem {α : Type} (m : List (String × α)) (k : String) (v : α)
    (h : lookupA m k = some v) : (k, v) ∈ m := by
  induction m with
  | nil => exact absurd h (by simp [lookupA])
  | cons p rest ih =>
    rcases eq_or_ne p.1 k with hpk | hpk
    · simp only [lookupA, if_pos hpk] at h
      obtain rfl := Option.some.inj h
      have hpe : p = (k, p.2) := Prod.ext hpk rfl
      exact hpe ▸ List.mem_cons_self p rest
    · simp only [lookupA, if_neg hpk] at h
      exact List.mem_cons_of_mem p (ih h)

theorem mem_getA {β : Type} (m : List (String × List β)) (k : String) (w : β)
    (h : w ∈ getA m k) : ∃ p ∈ m, p.1 = k ∧ w ∈ p.2 := by
  unfold getA at h
  cases hl : lookupA m k with
  | none => rw [hl] at h; simp at h
  | some ws =>
    rw [hl] at h
    exact ⟨(k, ws), lookupA_mem m k ws hl, rfl, by simpa using h⟩

theorem snd_mem_of_mem_withIdx {α : Type} (l : List α) (n : Nat) (p : Nat × α)
    (hp : p ∈ withIdx l n) : p.2 ∈ l := by
  have := List.mem_map_of_mem (fun q => q.2) hp
  rw [withIdx_map_snd] at this
  exact this

/-- Every traversal entry holds a word stored in the words object. -/
theorem entry_word_mem (d : DictionaryData) (e : Entry) (he : e ∈ allEntries d) :
    ∃ p ∈ d.words, e.w ∈ p.2 := by
  unfold allEntries at he
  obtain ⟨es, hes, hee⟩ := List.mem_flatten.mp he
  obtain ⟨c, _, rfl⟩ := List.mem_map.mp hes
  unfold catEntries at hee
  obtain ⟨q, hq, rfl⟩ := List.mem_map.mp hee
  have hw : q.2 ∈ getA d.words c.id := snd_mem_of_mem_withIdx _ 0 q hq
  obtain ⟨p, hpm, _, hwp⟩ := mem_getA d.words c.id q.2 hw
  exact ⟨p, hpm, hwp⟩

/-- Claim C7, amended: the duplicate lists of the two revisions agree on
every dictionary state in which no stored field value carries leading or
trailing whitespace (trimming the lowercased value changes nothing); in
general the second revision additionally trims values before comparing, so
the lists can differ. -/
theorem claim_C7_amended (d : DictionaryData)
    (h : ∀ p ∈ d.words, ∀ w ∈ p.2, ∀ l : Lang,
      trimStr (toLowerStr (w.get l)) = toLowerStr (w.get l)) :
    duplicatesB d = duplicates d := by
  unfold duplicates duplicatesB
  refine dupWith_congr normB normA d ?_
  intro e he l
  obtain ⟨p, hpm, hwp⟩ := entry_word_mem d e he
  unfold normA normB
  exact h p hpm e.w hwp l

/-- Dictionary refuting claim C7: one word is the other with a trailing
space appended. -/
def dC7 : DictionaryData :=
  ⟨[⟨"c", "C", "", 1, 10⟩],
   [("c", [⟨"a", "", "", "", 5⟩, ⟨"a ", "", "", "", 5⟩])]⟩

/-- Claim C7 counterexample: on dC7 revision A reports no duplicates while
revision B, which trims before comparing, reports one group, so the two
revisions do not compute the same duplicate list on every state. -/
theorem claim_C7_counterexample :
    duplicates dC7 = [] ∧
    duplicatesB dC7 = [⟨"a", Lang.ru, [("c", 0), ("c", 1)]⟩] ∧
    duplicatesB dC7 ≠ duplicates dC7 := by decide

/-- Whitespace-free dictionary on which the amended claim C7 applies. -/
def dC7w : DictionaryData :=
  ⟨[⟨"c", "C", "", 1, 10⟩],
   [("c", [⟨"x", "", "", "", 5⟩, ⟨"X", "", "", "", 5⟩])]⟩

/-- Witness for the amended claim C7 at the concrete state dC7w. -/
theorem claim_C7_witness : duplicatesB dC7w = duplicates dC7w :=
  claim_C7_amended dC7w (by decide)

/-- The non-first locations of all duplicate groups, in group order. -/
def remLocs (dups : List DupInfo) : List (String × Nat) :=
  (dups.map (fun g => g.locations.tail)).flatten

/-- A location is deleted when it appears as a non-first location of some
duplicate group. -/
def isRemovedLoc (dups : List DupInfo) (cid : String) (i : Nat) : Prop :=
  ∃ g ∈ dups, (cid, i) ∈ g.locations.tail

instance (dups : List DupInfo) (cid : String) (i : Nat) :
    Decidable (isRemovedLoc dups cid i) := by
  unfold isRemovedLoc; infer_instance

theorem mem_remLocs (dups : List DupInfo) (cid : String) (i : Nat) :
    (cid, i) ∈ remLocs dups ↔ isRemovedLoc dups cid i := by
  unfold remLocs isRemovedLoc
  rw [List.mem_flatten]
  constructor
  · rintro ⟨t, ht, hmem⟩
    obtain ⟨g, hg, rfl⟩ := List.mem_map.mp ht
    exact ⟨g, hg, hmem⟩
  · rintro ⟨g, hg, hmem⟩
    exact ⟨g.locations.tail, List.mem_map_of_mem _ hg, hmem⟩

theorem lookupA_addRm (tr : List (String × List Nat)) (cid : String) (i : Nat)
    (k : String) :
    lookupA (addRm tr cid i) k =
      if k = cid then (lookupA tr cid).map (fun s => if i ∈ s then s else s ++ [i])
      else lookupA tr k := by
  have := lookupA_mapVal tr cid (fun s => if i ∈ s then s else s ++ [i]) k
  exact this

theorem keysA_addRm (tr : List (String × List Nat)) (cid : String) (i : Nat) :
    keysA (addRm tr cid i) = keysA tr := by
  have := keysA_mapVal tr cid (fun s => if i ∈ s then s else s ++ [i])
  exact this

theorem mem_getA_addRm (tr : List (String × List Nat)) (lc : String) (li : Nat)
    (cid : String) (i : Nat) :
    i ∈ getA (addRm tr lc li) cid ↔
      i ∈ getA tr cid ∨ (cid = lc ∧ i = li ∧ lc ∈ keysA tr) := by
  unfold getA
  rw [lookupA_addRm]
  by_cases hc : cid = lc
  · subst hc
    rw [if_pos rfl]
    cases hl : lookupA tr cid with
    | none =>
      have hnk : cid ∉ keysA tr := by
        intro hm
        obtain ⟨v, hv⟩ := (mem_keysA_iff tr cid).mp hm
        rw [hl] at hv
        exact Option.noConfusion hv
      simp [hl, hnk]
    | some s =>
      have hk : cid ∈ keysA tr := (mem_keysA_iff tr cid).mpr ⟨s, hl⟩
      by_cases hi : li ∈ s
      · simp only [hl, Option.map_some', Option.getD_some, if_pos hi, hk,
          and_true, true_and]
        constructor
        · intro hm
          exact Or.inl hm
        · rintro (hm | rfl)
          · exact hm
          · exact hi
      · simp only [hl, Option.map_some', Option.getD_some, if_neg hi, hk,
          and_true, true_and, List.mem_append, List.mem_singleton]
  · rw [if_neg hc]
    simp [hc]

theorem foldl_addRm_char (locs : List (String × Nat))
    (tr : List (String × List Nat)) :
    keysA (locs.foldl (fun t loc => addRm t loc.1 loc.2) tr) = keysA tr ∧
    ∀ cid i, i ∈ getA (locs.foldl (fun t loc => addRm t loc.1 loc.2) tr) cid ↔
      (i ∈ getA tr cid ∨ ((cid, i) ∈ locs ∧ cid ∈ keysA tr)) := by
  induction locs generalizing tr with
  | nil => simp
  | cons loc rest ih =>
    obtain ⟨lc, li⟩ := loc
    rw [List.foldl_cons]
    obtain ⟨ihk, ihm⟩ := ih (addRm tr lc li)
    have hkeys := keysA_addRm tr lc li
    refine ⟨ihk.trans hkeys, fun cid i => ?_⟩
    rw [ihm cid i, hkeys, mem_getA_addRm]
    constructor
    · rintro ((hm | ⟨rfl, rfl, hk⟩) | ⟨hm, hk⟩)
      · exact Or.inl hm
      · exact Or.inr ⟨List.mem_cons_self _ _, hk⟩
      · exact Or.inr ⟨List.mem_cons_of_mem _ hm, hk⟩
    · rintro (hm | ⟨hm, hk⟩)
      · exact Or.inl (Or.inl hm)
      · rcases List.mem_cons.mp hm with hd | ht
        · obtain ⟨h1, h2⟩ := Prod.mk.injEq _ _ _ _ |>.mp hd
          exact Or.inl (Or.inr ⟨h1, h2, h1 ▸ hk⟩)
        · exact Or.inr ⟨ht, hk⟩

theorem getA_initTable (cats : List CategoryMeta) (cid : String) :
    getA (cats.map (fun c => (c.id, ([] : List Nat)))) cid = [] := by
  induction cats with
  | nil => simp [getA, lookupA]
  | cons c rest ih =>
    rcases eq_or_ne c.id cid with he | hne
    · simp [getA, lookupA, he]
    · simpa [getA, lookupA, hne] using ih

theorem rmTable_char (dups : List DupInfo) (cats : List CategoryMeta) :
    keysA (rmTable dups cats) = cats.map (fun c => c.id) ∧
    ∀ cid i, i ∈ getA (rmTable dups cats) cid ↔
      (isRemovedLoc dups cid i ∧ cid ∈ cats.map (fun c => c.id)) := by
  unfold rmTable
  have heq : dups.foldl
      (fun tr g => g.locations.tail.foldl (fun t loc => addRm t loc.1 loc.2) tr)
      (cats.map (fun c => (c.id, ([] : List Nat)))) =
      (remLocs dups).foldl (fun t loc => addRm t loc.1 loc.2)
      (cats.map (fun c => (c.id, ([] : List Nat)))) := by
    unfold remLocs
    rw [List.foldl_flatten, List.foldl_map]
  rw [heq]
  have hkeys0 : keysA (cats.map (fun c => (c.id, ([] : List Nat)))) =
      cats.map (fun c => c.id) := by
    unfold keysA
    rw [List.map_map]
    rfl
  obtain ⟨hk, hm⟩ := foldl_addRm_char (remLocs dups)
    (cats.map (fun c => (c.id, ([] : List Nat))))
  refine ⟨hk.trans hkeys0, fun cid i => ?_⟩
  rw [hm cid i, getA_initTable, hkeys0, mem_remLocs]
  simp

theorem foldl_setA_char {β : Type} (cs : List CategoryMeta)
    (F : CategoryMeta → List β → List β) (m0 : List (String × List β))
    (hN : (cs.map (fun c => c.id)).Nodup) :
    (∀ k, k ∉ cs.map (fun c => c.id) →
      lookupA (cs.foldl (fun m c => setA m c.id (F c (getA m c.id))) m0) k =
        lookupA m0 k) ∧
    (∀ c ∈ cs, getA (cs.foldl (fun m c => setA m c.id (F c (getA m c.id))) m0) c.id =
      F c (getA m0 c.id)) := by
  induction cs generalizing m0 with
  | nil => simp
  | cons c rest ih =>
    rw [List.map_cons, List.nodup_cons] at hN
    obtain ⟨hc, hrest⟩ := hN
    rw [List.foldl_cons]
    obtain ⟨ih1, ih2⟩ := ih (setA m0 c.id (F c (getA m0 c.id))) hrest
    constructor
    · intro k hk
      rw [List.map_cons, List.mem_cons] at hk
      push_neg at hk
      rw [ih1 k hk.2, lookupA_setA, if_neg hk.1]
    · intro c' hc'
      rcases List.mem_cons.mp hc' with rfl | hc'2
      · have h2 := congrArg (fun o : Option (List β) => o.getD []) (ih1 c'.id hc)
        refine h2.trans ?_
        show getA (setA m0 c'.id (F c' (getA m0 c'.id))) c'.id = F c' (getA m0 c'.id)
        rw [getA_setA, if_pos rfl]
      · have hne : c'.id ≠ c.id := by
          intro he
          exact hc (he ▸ List.mem_map_of_mem (fun x => x.id) hc'2)
        rw [ih2 c' hc'2, getA_setA, if_neg hne]

theorem removeDupsWith_categories (dups : List DupInfo) (d : DictionaryData) :
    (removeDupsWith dups d).categories = d.categories := by
  unfold removeDupsWith
  split <;> rfl

theorem mem_allEntries (d : DictionaryData) (e : Entry) :
    e ∈ allEntries d ↔
      ∃ c ∈ d.categories, c.id = e.cid ∧ (getA d.words c.id)[e.idx]? = some e.w := by
  unfold allEntries catEntries
  rw [List.mem_flatten]
  constructor
  · rintro ⟨es, hes, he⟩
    obtain ⟨c, hcm, rfl⟩ := List.mem_map.mp hes
    obtain ⟨q, hq, rfl⟩ := List.mem_map.mp he
    refine ⟨c, hcm, rfl, ?_⟩
    have hq2 : (q.1, q.2) ∈ withIdx (getA d.words c.id) 0 := by
      obtain ⟨q1, q2⟩ := q
      exact hq
    exact (mem_withIdx_zero _ q.1 q.2).mp hq2
  · rintro ⟨c, hcm, hcid, hget⟩
    refine ⟨(withIdx (getA d.words c.id) 0).map (fun p => ⟨c.id, p.1, p.2⟩),
      List.mem_map_of_mem _ hcm, ?_⟩
    refine List.mem_map.mpr ⟨(e.idx, e.w), (mem_withIdx_zero _ e.idx e.w).mpr hget, ?_⟩
    obtain ⟨ecid, eidx, ew⟩ := e
    simp only at hcid ⊢
    rw [hcid]

/-- Removal semantics of removeDuplicates: a listed category keeps exactly
the words whose pre-removal index is not a non-first location of a duplicate
group, in their original order; keys not in the category list are untouched. -/
theorem removeDuplicates_words (d : DictionaryData)
    (hN : (d.categories.map (fun c => c.id)).Nodup) :
    (∀ c ∈ d.categories,
      getA (removeDuplicates d).words c.id =
        ((withIdx (getA d.words c.id) 0).filter
          (fun p => decide (¬ isRemovedLoc (duplicates d) c.id p.1))).map
          (fun p => p.2)) ∧
    (∀ k, k ∉ d.categories.map (fun c => c.id) →
      lookupA (removeDuplicates d).words k = lookupA d.words k) := by
  unfold removeDuplicates removeDupsWith
  by_cases h0 : (duplicates d).length = 0
  · rw [if_pos h0]
    have hdups : duplicates d = [] := List.length_eq_zero.mp h0
    constructor
    · intro c _
      have hfil : ∀ p ∈ withIdx (getA d.words c.id) 0,
          decide (¬ isRemovedLoc (duplicates d) c.id p.1) = true := by
        intro p _
        simp [hdups, isRemovedLoc]
      rw [List.filter_eq_self.mpr hfil, withIdx_map_snd]
    · intro k _
      rfl
  · rw [if_neg h0]
    obtain ⟨hset1, hset2⟩ := foldl_setA_char d.categories
      (fun c ws => ((withIdx ws 0).filter
        (fun p => decide (p.1 ∉ getA (rmTable (duplicates d) d.categories) c.id))).map
        (fun p => p.2))
      d.words hN
    constructor
    · intro c hc
      have hbase := hset2 c hc
      simp only at hbase
      rw [hbase]
      congr 1
      apply List.filter_congr
      intro p _
      have hiff : (p.1 ∉ getA (rmTable (duplicates d) d.categories) c.id) ↔
          ¬ isRemovedLoc (duplicates d) c.id p.1 := by
        rw [(rmTable_char (duplicates d) d.categories).2 c.id p.1]
        simp [List.mem_map_of_mem (fun x => x.id) hc]
      exact decide_eq_decide.mpr hiff
    · intro k hk
      exact hset1 k hk

theorem mem_occsW (norm : String → String) (d : DictionaryData) (l : Lang)
    (v : String) (cid : String) (i : Nat)
    (h : (cid, i) ∈ occsW norm d l v) :
    ∃ e ∈ allEntries d, e.cid = cid ∧ e.idx = i := by
  unfold occsW at h
  by_cases hv : v = ""
  · rw [if_pos hv] at h
    exact absurd h (by simp)
  · rw [if_neg hv] at h
    obtain ⟨e, he, heq⟩ := List.mem_map.mp h
    obtain ⟨h1, h2⟩ := Prod.mk.injEq _ _ _ _ |>.mp heq
    exact ⟨e, List.mem_of_mem_filter he, h1, h2⟩

/-- Claim C2, amended: removeDuplicates deletes from each listed category
exactly the words whose pre-removal index appears as a non-first location of
some duplicate group, keeps everything else in order, and leaves keys
outside the category list untouched; the word at the first-listed location
of a group remains in its category provided that location is not also a
non-first location of another group (claim C2 asserts it unconditionally,
which the counterexample refutes). -/
theorem claim_C2_amended (d : DictionaryData)
    (hN : (d.categories.map (fun c => c.id)).Nodup) :
    (removeDuplicates d).categories = d.categories ∧
    (∀ c ∈ d.categories,
      getA (removeDuplicates d).words c.id =
        ((withIdx (getA d.words c.id) 0).filter
          (fun p => decide (¬ isRemovedLoc (duplicates d) c.id p.1))).map
          (fun p => p.2)) ∧
    (∀ k, k ∉ d.categories.map (fun c => c.id) →
      lookupA (removeDuplicates d).words k = lookupA d.words k) ∧
    (∀ g ∈ duplicates d, ∀ cid0 i0 w,
      g.locations.head? = some (cid0, i0) →
      ¬ isRemovedLoc (duplicates d) cid0 i0 →
      (getA d.words cid0)[i0]? = some w →
      ∃ c ∈ d.categories, c.id = cid0 ∧ w ∈ getA (removeDuplicates d).words c.id) := by
  obtain ⟨hwords, hkeys⟩ := removeDuplicates_words d hN
  refine ⟨removeDupsWith_categories _ d, hwords, hkeys, ?_⟩
  intro g hg cid0 i0 w hhead hnr hget
  obtain ⟨hloc, hlen⟩ := (mem_dupWith normA d g).mp hg
  have hmem : (cid0, i0) ∈ g.locations := by
    cases hl : g.locations with
    | nil => rw [hl] at hhead; exact absurd hhead (by simp)
    | cons a t =>
      rw [hl] at hhead
      simp only [List.head?_cons] at hhead
      obtain rfl := Option.some.inj hhead
      exact List.mem_cons_self _ t
  have hocc : (cid0, i0) ∈ occsW normA d g.lang g.word := hloc ▸ hmem
  obtain ⟨e, he, hec, hei⟩ := mem_occsW normA d g.lang g.word cid0 i0 hocc
  obtain ⟨c, hcm, hcid, _⟩ := (mem_allEntries d e).mp he
  refine ⟨c, hcm, hcid.trans hec, ?_⟩
  rw [hwords c hcm]
  refine List.mem_map.mpr ⟨(i0, w), ?_, rfl⟩
  refine List.mem_filter.mpr ⟨?_, ?_⟩
  · refine (mem_withIdx_zero _ i0 w).mpr ?_
    rw [hcid.trans hec]
    exact hget
  · rw [hcid.trans hec]
    simpa using hnr

/-- Dictionary refuting the unconditional survival part of claim C2: the
first-listed occurrence of the duplicated ru value x, location (c, 1), is
also the non-first occurrence of the duplicated en value y, so it gets
removed. -/
def dC2 : DictionaryData :=
  ⟨[⟨"c", "C", "", 1, 10⟩],
   [("c", [⟨"", "y", "", "", 5⟩, ⟨"x", "y", "", "", 5⟩, ⟨"x", "", "", "", 5⟩])]⟩

/-- Claim C2 counterexample: on dC2 the duplicate group of the ru value x
lists (c, 1) first, yet no word with ru field x survives removeDuplicates,
so the first-listed occurrence of a duplicated value does not always remain. -/
theorem claim_C2_counterexample :
    (∃ g ∈ duplicates dC2, g.word = "x" ∧ g.lang = Lang.ru ∧
      g.locations.head? = some ("c", 1)) ∧
    (getA dC2.words "c")[1]? = some ⟨"x", "y", "", "", 5⟩ ∧
    (∀ w ∈ getA (removeDuplicates dC2).words "c", w.ru ≠ "x") := by decide

/-- Witness for the amended claim C2 at the concrete state dC2. -/
theorem claim_C2_witness :
    (removeDuplicates dC2).categories = dC2.categories ∧
    getA (removeDuplicates dC2).words "c" =
      ((withIdx (getA dC2.words "c") 0).filter
        (fun p => decide (¬ isRemovedLoc (duplicates dC2) "c" p.1))).map
        (fun p => p.2) := by
  obtain ⟨h1, h2, _⟩ := claim_C2_amended dC2 (by decide)
  exact ⟨h1, h2 ⟨"c", "C", "", 1, 10⟩ (by decide)⟩

theorem countP_withIdx_field (ws : List Word) (n : Nat) (l : Lang) (v : String) :
    (withIdx ws n).countP (fun p => decide (normA (p.2.get l) = v)) =
      ws.countP (fun w => decide (normA (w.get l) = v)) :=
  countP_withIdx ws n (fun w => decide (normA (w.get l) = v))

theorem countP_congr_list {α : Type} (l : List α) (p q : α → Bool)
    (h : ∀ a ∈ l, p a = q a) : l.countP p = l.countP q := by
  rw [List.countP_eq_length_filter, List.countP_eq_length_filter,
    List.filter_congr h]

theorem removeDuplicates_categories (d : DictionaryData) :
    (removeDuplicates d).categories = d.categories :=
  removeDupsWith_categories _ d

/-- Per-category occurrence count after removal: the surviving occurrence
indices of a value are the non-removed occurrence indices. -/
theorem catOccIdxs_len_rd (d : DictionaryData)
    (hN : (d.categories.map (fun c => c.id)).Nodup) (l : Lang) (v : String)
    (c : CategoryMeta) (hc : c ∈ d.categories) :
    (catOccIdxs normA (removeDuplicates d) l v c).length =
      ((catOccIdxs normA d l v c).filter
        (fun i => decide (¬ isRemovedLoc (duplicates d) c.id i))).length := by
  unfold catOccIdxs
  rw [(removeDuplicates_words d hN).1 c hc]
  rw [List.length_map]
  rw [← List.countP_eq_length_filter]
  rw [← List.countP_eq_length_filter]
  rw [countP_withIdx_field]
  rw [List.countP_map]
  rw [List.countP_filter]
  rw [List.countP_map]
  rw [List.countP_filter]
  apply countP_congr_list
  intro p _
  simp only [Function.comp_apply]
  exact Bool.and_comm _ _

/-- Global occurrence count after removal: the occurrences of a value in the
cleaned dictionary are counted by the non-removed occurrences before. -/
theorem occsW_len_rd (d : DictionaryData)
    (hN : (d.categories.map (fun c => c.id)).Nodup) (l : Lang) (v : String)
    (hv : v ≠ "") :
    (occsW normA (removeDuplicates d) l v).length =
      ((occsW normA d l v).filter
        (fun loc => decide (¬ isRemovedLoc (duplicates d) loc.1 loc.2))).length := by
  rw [occsW_structure normA (removeDuplicates d) l v hv,
    occsW_structure normA d l v hv, removeDuplicates_categories d]
  rw [List.length_flatten, List.filter_flatten, List.length_flatten,
    List.map_map, List.map_map, List.map_map]
  congr 1
  apply List.map_eq_map_iff.mpr
  intro c hc
  simp only [Function.comp_apply]
  rw [List.length_map]
  rw [catOccIdxs_len_rd d hN l v c hc]
  rw [List.filter_map]
  rw [List.length_map]
  congr 1

/-- At most one occurrence of any value survives removal: every non-first
occurrence is removed, so only the first can remain. -/
theorem surviving_le_one (d : DictionaryData) (l : Lang) (v : String) :
    ((occsW normA d l v).filter
      (fun loc => decide (¬ isRemovedLoc (duplicates d) loc.1 loc.2))).length ≤ 1 := by
  by_cases hlen : (occsW normA d l v).length ≤ 1
  · exact le_trans (List.length_filter_le _ _) hlen
  · push_neg at hlen
    have hg : DupInfo.mk v l (occsW normA d l v) ∈ duplicates d := by
      refine (mem_dupWith normA d _).mpr ⟨rfl, ?_⟩
      show 2 ≤ (occsW normA d l v).length
      omega
    cases hocc : occsW normA d l v with
    | nil => simp
    | cons a t =>
      have htail : ∀ loc ∈ t, isRemovedLoc (duplicates d) loc.1 loc.2 := by
        intro loc hloc
        refine ⟨DupInfo.mk v l (occsW normA d l v), hg, ?_⟩
        rw [hocc]
        simpa using hloc
      rw [List.filter_cons]
      have hfil : t.filter
          (fun loc => decide (¬ isRemovedLoc (duplicates d) loc.1 loc.2)) = [] := by
        apply List.filter_eq_nil_iff.mpr
        intro loc hloc
        simpa using htail loc hloc
      by_cases ha : decide (¬ isRemovedLoc (duplicates d) a.1 a.2) = true
      · rw [if_pos ha, hfil]
        simp
      · rw [if_neg ha, hfil]
        simp

/-- Claim C3: duplicate detection on the output of removeDuplicates finds
nothing, and a second application of removeDuplicates changes nothing. -/
theorem claim_C3 (d : DictionaryData)
    (hN : (d.categories.map (fun c => c.id)).Nodup) :
    duplicates (removeDuplicates d) = [] ∧
    removeDuplicates (removeDuplicates d) = removeDuplicates d := by
  have hempt : duplicates (removeDuplicates d) = [] := by
    apply List.eq_nil_iff_forall_not_mem.mpr
    intro g hg
    obtain ⟨hloc, hlen⟩ := (mem_dupWith normA (removeDuplicates d) g).mp hg
    have hv : g.word ≠ "" := by
      intro hc
      rw [hloc] at hlen
      unfold occsW at hlen
      rw [if_pos hc] at hlen
      simp at hlen
    have hb := occsW_len_rd d hN g.lang g.word hv
    have hs := surviving_le_one d g.lang g.word
    rw [hloc] at hlen
    omega
  refine ⟨hempt, ?_⟩
  show removeDupsWith (duplicates (removeDuplicates d)) (removeDuplicates d) =
    removeDuplicates d
  rw [hempt]
  simp [removeDupsWith]

/-- Witness for claim C3 at the concrete state dC2. -/
theorem claim_C3_witness :
    duplicates (removeDuplicates dC2) = [] ∧
    removeDuplicates (removeDuplicates dC2) = removeDuplicates dC2 :=
  claim_C3 dC2 (by decide)

/-- One language projection of a fold of four-way legacy updates is an
independent fold on that projection. -/
theorem legacyFold_get (d : DictionaryData) (l : Lang) (cats : List CategoryMeta)
    (leg0 : Legacy) :
    (cats.foldl (fun leg c =>
      let cws := getA d.words c.id
      (⟨setA leg.ru c.id ((cws.map (fun w => w.ru)).filter (fun s => decide (s ≠ ""))),
        setA leg.en c.id ((cws.map (fun w => w.en)).filter (fun s => decide (s ≠ ""))),
        setA leg.es c.id ((cws.map (fun w => w.es)).filter (fun s => decide (s ≠ ""))),
        setA leg.ua c.id ((cws.map (fun w => w.ua)).filter (fun s => decide (s ≠ "")))⟩ :
        Legacy))
      leg0).get l =
      cats.foldl
        (fun m c => setA m c.id
          (((getA d.words c.id).map (fun w => w.get l)).filter
            (fun s => decide (s ≠ "")))) (leg0.get l) := by
  induction cats generalizing leg0 with
  | nil => rfl
  | cons c rest ih =>
    rw [List.foldl_cons, List.foldl_cons, ih]
    congr 1
    cases l <;> rfl

/-- One language projection of the legacy conversion is an independent fold
over the categories. -/
theorem convertNewToLegacy_get (d : DictionaryData) (l : Lang) :
    (convertNewToLegacy d).get l =
      d.categories.foldl
        (fun m c => setA m c.id
          (((getA d.words c.id).map (fun w => w.get l)).filter
            (fun s => decide (s ≠ "")))) [] := by
  have h0 : (⟨[], [], [], []⟩ : Legacy).get l = [] := by cases l <;> rfl
  unfold convertNewToLegacy
  rw [legacyFold_get, h0]

/-- Claim C4, amended: on a category in which every word has all four
language fields non-empty, convertNewToLegacy emits position-aligned lists:
each language list is exactly the field projection of the word list, so the
entry at position i of every language list comes from the word at position i.
Claim C4 asserts this for every dictionary, which the counterexample refutes:
the filter on empty (falsy) strings shifts positions. -/
theorem claim_C4_amended (d : DictionaryData)
    (hN : (d.categories.map (fun c => c.id)).Nodup)
    (c : CategoryMeta) (hc : c ∈ d.categories)
    (hfull : ∀ w ∈ getA d.words c.id, ∀ l : Lang, w.get l ≠ "") :
    ∀ l : Lang,
      getA ((convertNewToLegacy d).get l) c.id =
        (getA d.words c.id).map (fun w => w.get l) ∧
      (∀ (i : Nat) (w : Word), (getA d.words c.id)[i]? = some w →
        (getA ((convertNewToLegacy d).get l) c.id)[i]? = some (w.get l)) := by
  intro l
  have hmain : getA ((convertNewToLegacy d).get l) c.id =
      (getA d.words c.id).map (fun w => w.get l) := by
    rw [convertNewToLegacy_get d l]
    have hch := (foldl_setA_char d.categories
      (fun c _ => ((getA d.words c.id).map (fun w => w.get l)).filter
        (fun s => decide (s ≠ ""))) [] hN).2 c hc
    simp only at hch
    rw [hch]
    apply List.filter_eq_self.mpr
    intro s hs
    obtain ⟨w, hw, rfl⟩ := List.mem_map.mp hs
    simpa using hfull w hw l
  refine ⟨hmain, fun i w hi => ?_⟩
  rw [hmain, List.getElem?_map, hi]
  rfl

/-- Dictionary refuting claim C4: the first word has an empty en field. -/
def dC4 : DictionaryData :=
  ⟨[⟨"c", "C", "", 1, 10⟩],
   [("c", [⟨"a", "", "", "", 5⟩, ⟨"b", "x", "", "", 5⟩])]⟩

/-- Claim C4 counterexample: after conversion the ru list is a, b while the
en list is just x, so position 0 of the ru list and position 0 of the en
list come from different words; indeed no word of the category carries both
strings. -/
theorem claim_C4_counterexample :
    getA ((convertNewToLegacy dC4).get Lang.ru) "c" = ["a", "b"] ∧
    getA ((convertNewToLegacy dC4).get Lang.en) "c" = ["x"] ∧
    ¬ ∃ w ∈ getA dC4.words "c", w.ru = "a" ∧ w.en = "x" := by decide

/-- Fully translated dictionary witnessing the amended claim C4. -/
def dC4w : DictionaryData :=
  ⟨[⟨"c", "C", "", 1, 10⟩],
   [("c", [⟨"a", "b", "cc", "d", 5⟩, ⟨"e", "f", "g", "h", 5⟩])]⟩

/-- Witness for the amended claim C4 at the concrete state dC4w. -/
theorem claim_C4_witness :
    getA ((convertNewToLegacy dC4w).get Lang.en) "c" =
      (getA dC4w.words "c").map (fun w => w.get Lang.en) :=
  (claim_C4_amended dC4w (by decide) ⟨"c", "C", "", 1, 10⟩ (by decide)
    (by decide) Lang.en).1

theorem foldl_addExtra (ks : List String) (acc : List CategoryMeta)
    (hk : ks.Nodup) :
    ks.foldl addExtra acc =
      acc ++ (ks.filter (fun k => decide (¬ ∃ c ∈ acc, c.id = k))).map mkExtraCat := by
  induction ks generalizing acc with
  | nil => simp
  | cons k rest ih =>
    rw [List.nodup_cons] at hk
    obtain ⟨hkr, hrest⟩ := hk
    rw [List.foldl_cons, List.filter_cons]
    by_cases h : ∃ c ∈ acc, c.id = k
    · have haddE : addExtra acc k = acc := by unfold addExtra; rw [if_pos h]
      rw [haddE, ih acc hrest]
      have : (decide (¬ ∃ c ∈ acc, c.id = k)) = false := by simpa using h
      rw [this]
      simp
    · have haddE : addExtra acc k = acc ++ [mkExtraCat k] := by
        unfold addExtra; rw [if_neg h]
      rw [haddE, ih _ hrest]
      have hdec : (decide (¬ ∃ c ∈ acc, c.id = k)) = true := by simpa using h
      rw [hdec]
      have hfil : rest.filter
          (fun k2 => decide (¬ ∃ c ∈ acc ++ [mkExtraCat k], c.id = k2)) =
          rest.filter (fun k2 => decide (¬ ∃ c ∈ acc, c.id = k2)) := by
        apply List.filter_congr
        intro k2 hk2
        have hne : k ≠ k2 := fun hc => hkr (hc ▸ hk2)
        apply decide_eq_decide.mpr
        constructor
        · intro hno hex
          obtain ⟨c, hcm, hcid⟩ := hex
          exact hno ⟨c, List.mem_append_left _ hcm, hcid⟩
        · intro hno hex
          obtain ⟨c, hcm, hcid⟩ := hex
          rcases List.mem_append.mp hcm with hcm2 | hcm2
          · exact hno ⟨c, hcm2, hcid⟩
          · rw [List.mem_singleton] at hcm2
            exact hne (by rw [← hcid, hcm2]; rfl)
      rw [hfil]
      simp

/-- Category list produced by the legacy conversion: the variant defaults
followed by one fresh category per additional id, in first-occurrence order. -/
theorem convertLegacyToNew_categories (leg : Legacy) (variant : DictionaryVariant)
    (r : String → Nat → Nat) :
    (convertLegacyToNew leg variant r).categories =
      defaultCats variant ++
        ((firstDedup (allKeys leg)).filter
          (fun k => decide (¬ ∃ c ∈ defaultCats variant, c.id = k))).map mkExtraCat :=
  foldl_addExtra (firstDedup (allKeys leg)) (defaultCats variant)
    (nodup_firstDedup (allKeys leg))

theorem defaultCats_ids_nodup (variant : DictionaryVariant) :
    ((defaultCats variant).map (fun c => c.id)).Nodup := by
  cases variant <;> decide

theorem convertLegacyToNew_ids_nodup (leg : Legacy) (variant : DictionaryVariant)
    (r : String → Nat → Nat) :
    ((convertLegacyToNew leg variant r).categories.map (fun c => c.id)).Nodup := by
  rw [convertLegacyToNew_categories, List.map_append, List.map_map]
  have hmap : ((fun c : CategoryMeta => c.id) ∘ mkExtraCat) = id := rfl
  rw [hmap, List.map_id]
  rw [List.nodup_append]
  refine ⟨defaultCats_ids_nodup variant,
    (nodup_firstDedup (allKeys leg)).filter _, ?_⟩
  intro a ha hb
  have := List.of_mem_filter hb
  have hnot : ¬ ∃ c ∈ defaultCats variant, c.id = a := by simpa using this
  obtain ⟨c, hcm, hcid⟩ := List.mem_map.mp ha
  exact hnot ⟨c, hcm, hcid⟩

/-- Word list of one category after legacy conversion. -/
theorem convertLegacyToNew_words (leg : Legacy) (variant : DictionaryVariant)
    (r : String → Nat → Nat) (c : CategoryMeta)
    (hc : c ∈ (convertLegacyToNew leg variant r).categories) :
    getA (convertLegacyToNew leg variant r).words c.id = buildCatWords leg c r := by
  have hch := (foldl_setA_char (convertLegacyToNew leg variant r).categories
    (fun c _ => buildCatWords leg c r) []
    (convertLegacyToNew_ids_nodup leg variant r)).2 c hc
  simp only at hch
  exact hch

/-- Claim C5: convertLegacyToNew returns the variant defaults followed by
exactly one fresh category, with intensity range 1 to 10, per additional
category id found in any of the four languages; each category gets a word
list whose length is the maximum of the four per-language list lengths, a
missing entry in a language becoming the empty string at the same position. -/
theorem claim_C5 (leg : Legacy) (variant : DictionaryVariant)
    (r : String → Nat → Nat) :
    (convertLegacyToNew leg variant r).categories =
      defaultCats variant ++
        ((firstDedup (allKeys leg)).filter
          (fun k => decide (¬ ∃ c ∈ defaultCats variant, c.id = k))).map mkExtraCat ∧
    (∀ c ∈ (convertLegacyToNew leg variant r).categories.drop
        (defaultCats variant).length,
      c.intensityMin = 1 ∧ c.intensityMax = 10) ∧
    (∀ cid : String,
      ((convertLegacyToNew leg variant r).categories.drop
        (defaultCats variant).length).countP (fun c => decide (c.id = cid)) =
        if cid ∈ allKeys leg ∧ ¬ ∃ c ∈ defaultCats variant, c.id = cid
        then 1 else 0) ∧
    (∀ c ∈ (convertLegacyToNew leg variant r).categories,
      (getA (convertLegacyToNew leg variant r).words c.id).length =
        max (max (max (getA (leg.get Lang.ru) c.id).length
          (getA (leg.get Lang.en) c.id).length)
          (getA (leg.get Lang.es) c.id).length)
          (getA (leg.get Lang.ua) c.id).length ∧
      ∀ (i : Nat) (w : Word), (getA (convertLegacyToNew leg variant r).words c.id)[i]? = some w →
        ∀ l : Lang, w.get l = (getA (leg.get l) c.id).getD i "") := by
  have hcats := convertLegacyToNew_categories leg variant r
  have hdrop : (convertLegacyToNew leg variant r).categories.drop
      (defaultCats variant).length =
      ((firstDedup (allKeys leg)).filter
        (fun k => decide (¬ ∃ c ∈ defaultCats variant, c.id = k))).map mkExtraCat := by
    rw [hcats, List.drop_left]
  refine ⟨hcats, ?_, ?_, ?_⟩
  · intro c hc
    rw [hdrop] at hc
    obtain ⟨k, _, rfl⟩ := List.mem_map.mp hc
    exact ⟨rfl, rfl⟩
  · intro cid
    rw [hdrop]
    rw [List.countP_map]
    have hpt : ∀ k ∈ (firstDedup (allKeys leg)).filter
        (fun k => decide (¬ ∃ c ∈ defaultCats variant, c.id = k)),
        ((fun c : CategoryMeta => decide (c.id = cid)) ∘ mkExtraCat) k =
          decide (k = cid) := by
      intro k _
      rfl
    rw [countP_congr_list _ _ _ hpt]
    by_cases hin : cid ∈ allKeys leg ∧ ¬ ∃ c ∈ defaultCats variant, c.id = cid
    · rw [if_pos hin]
      have hmem : cid ∈ (firstDedup (allKeys leg)).filter
          (fun k => decide (¬ ∃ c ∈ defaultCats variant, c.id = k)) := by
        refine List.mem_filter.mpr ⟨(mem_firstDedup _ cid).mpr hin.1, by simpa using hin.2⟩
      have hnd : ((firstDedup (allKeys leg)).filter
          (fun k => decide (¬ ∃ c ∈ defaultCats variant, c.id = k))).Nodup :=
        (nodup_firstDedup (allKeys leg)).filter _
      have hcnt : ((firstDedup (allKeys leg)).filter
          (fun k => decide (¬ ∃ c ∈ defaultCats variant, c.id = k))).count cid = 1 :=
        List.count_eq_one_of_mem hnd hmem
      rw [← hcnt]
      apply countP_congr_list
      intro k _
      have hbe : (k == cid) = decide (k = cid) := by
        by_cases h : k = cid <;> simp [h]
      exact hbe.symm
    · rw [if_neg hin]
      apply List.countP_eq_zero.mpr
      intro k hk
      intro hdec
      have hkc : k = cid := of_decide_eq_true hdec
      subst hkc
      have h1 := (mem_firstDedup _ k).mp (List.mem_of_mem_filter hk)
      have h2 := List.of_mem_filter hk
      exact hin ⟨h1, by simpa using h2⟩
  · intro c hc
    rw [convertLegacyToNew_words leg variant r c hc]
    constructor
    · unfold buildCatWords
      rw [List.length_map, List.length_range]
    · intro i w hi l
      unfold buildCatWords at hi
      rw [List.getElem?_map] at hi
      cases hr : (List.range (max (max (max (getA (leg.get Lang.ru) c.id).length
          (getA (leg.get Lang.en) c.id).length)
          (getA (leg.get Lang.es) c.id).length)
          (getA (leg.get Lang.ua) c.id).length))[i]? with
      | none => rw [hr] at hi; exact absurd hi (by simp)
      | some j =>
        rw [hr] at hi
        simp only [Option.map_some'] at hi
        obtain rfl := Option.some.inj hi
        have hji : j = i := by
          obtain ⟨hlt, hj⟩ := List.getElem?_eq_some_iff.mp hr
          rw [List.getElem_range] at hj
          exact hj.symm
        subst hji
        cases l <;> rfl

theorem clamp10_bounds (x : ℚ) : 1 ≤ clamp10 x ∧ clamp10 x ≤ 10 := by
  unfold clamp10
  constructor
  · rcases le_total 10 (max 1 x) with h | h
    · rw [min_eq_left h]; norm_num
    · rw [min_eq_right h]; exact le_max_left 1 x
  · exact min_le_left 10 _

theorem den_clamp10 (y : ℚ) (h : y.den = 1) : (clamp10 y).den = 1 := by
  unfold clamp10
  rcases le_total 10 (max 1 y) with h1 | h1
  · rw [min_eq_left h1]; decide
  · rw [min_eq_right h1]
    rcases le_total 1 y with h2 | h2
    · rw [max_eq_right h2]; exact h
    · rw [max_eq_left h2]; decide

theorem WordInv_setF (w : Word) (f : WField) (ev : EditVal) (hw : WordInv w)
    (hnum : (ev.num.getD 1).den = 1) : WordInv (w.setF f ev) := by
  cases f with
  | lang l => cases l <;> exact hw
  | intensity =>
    refine ⟨(clamp10_bounds (numOr5 ev.num)).1,
      (clamp10_bounds (numOr5 ev.num)).2, ?_⟩
    apply den_clamp10
    cases hn : ev.num with
    | none => decide
    | some x =>
      have hx : x.den = 1 := by rw [hn] at hnum; simpa using hnum
      have hred : numOr5 (some x) = if x = 0 then 5 else x := rfl
      show (numOr5 (some x)).den = 1
      rw [hred]
      by_cases h0 : x = 0
      · rw [if_pos h0]; decide
      · rw [if_neg h0]; exact hx

theorem WInv_setA (m : List (String × List Word)) (k : String) (v : List Word)
    (hm : ∀ p ∈ m, ∀ w ∈ p.2, WordInv w) (hv : ∀ w ∈ v, WordInv w) :
    ∀ p ∈ setA m k v, ∀ w ∈ p.2, WordInv w := by
  intro p hp
  rcases mem_setA m k v p hp with rfl | hp2
  · exact hv
  · exact hm p hp2

theorem WordInv_getD (ws : List Word) (i : Nat)
    (hws : ∀ w ∈ ws, WordInv w) : WordInv (ws.getD i dWord) := by
  by_cases h : i < ws.length
  · rw [List.getD_eq_getElem ws dWord h]
    exact hws _ (List.getElem_mem h)
  · rw [List.getD_eq_default ws dWord (by omega)]
    decide

theorem mem_foldl_setA_const {β : Type} (cs : List CategoryMeta)
    (G : CategoryMeta → List β) (m0 : List (String × List β)) (p : String × List β)
    (hp : p ∈ cs.foldl (fun m c => setA m c.id (G c)) m0) :
    p ∈ m0 ∨ ∃ c ∈ cs, p = (c.id, G c) := by
  induction cs generalizing m0 with
  | nil => exact Or.inl hp
  | cons c rest ih =>
    rw [List.foldl_cons] at hp
    rcases ih (setA m0 c.id (G c)) hp with hm | ⟨c2, hc2, rfl⟩
    · rcases mem_setA m0 c.id (G c) p hm with rfl | hm2
      · exact Or.inr ⟨c, List.mem_cons_self c rest, rfl⟩
      · exact Or.inl hm2
    · exact Or.inr ⟨c2, List.mem_cons_of_mem c hc2, rfl⟩

theorem defaultCats_range_ok (variant : DictionaryVariant) :
    ∀ c ∈ defaultCats variant,
      1 ≤ c.intensityMin ∧ c.intensityMin ≤ c.intensityMax ∧ c.intensityMax ≤ 10 := by
  cases variant <;> decide

theorem convertLegacyToNew_cat_range (leg : Legacy) (variant : DictionaryVariant)
    (r : String → Nat → Nat) :
    ∀ c ∈ (convertLegacyToNew leg variant r).categories,
      1 ≤ c.intensityMin ∧ c.intensityMin ≤ c.intensityMax ∧ c.intensityMax ≤ 10 := by
  intro c hc
  rw [convertLegacyToNew_categories] at hc
  rcases List.mem_append.mp hc with hd | he
  · exact defaultCats_range_ok variant c hd
  · obtain ⟨k, _, rfl⟩ := List.mem_map.mp he
    refine ⟨?_, ?_, ?_⟩ <;> norm_num [mkExtraCat]

theorem buildCatWords_inv (leg : Legacy) (c : CategoryMeta) (r : String → Nat → Nat)
    (hr : 1 ≤ c.intensityMin ∧ c.intensityMin ≤ c.intensityMax ∧ c.intensityMax ≤ 10) :
    ∀ w ∈ buildCatWords leg c r, WordInv w := by
  intro w hw
  unfold buildCatWords at hw
  obtain ⟨i, _, rfl⟩ := List.mem_map.mp hw
  unfold WordInv
  simp only
  have hspan : (0 : Int) < c.intensityMax - c.intensityMin + 1 := by omega
  have h1 := Int.emod_nonneg (r c.id i : Int) (by omega :
    (c.intensityMax - c.intensityMin + 1 : Int) ≠ 0)
  have h2 := Int.emod_lt_of_pos (r c.id i : Int) hspan
  refine ⟨?_, ?_, Rat.den_intCast _⟩
  · exact_mod_cast (by omega : (1 : Int) ≤ c.intensityMin +
      (r c.id i : Int) % (c.intensityMax - c.intensityMin + 1))
  · exact_mod_cast (by omega : c.intensityMin +
      (r c.id i : Int) % (c.intensityMax - c.intensityMin + 1) ≤ (10 : Int))

/-- Intensity invariant established by the legacy conversion. -/
theorem convertLegacyToNew_inv (leg : Legacy) (variant : DictionaryVariant)
    (r : String → Nat → Nat) : DictWordsInv (convertLegacyToNew leg variant r) := by
  intro p hp
  have hp2 : p ∈ (convertLegacyToNew leg variant r).words := hp
  rcases mem_foldl_setA_const (convertLegacyToNew leg variant r).categories
    (fun c => buildCatWords leg c r) [] p hp2 with hm | ⟨c, hcm, rfl⟩
  · exact absurd hm (by simp)
  · exact buildCatWords_inv leg c r (convertLegacyToNew_cat_range leg variant r c hcm)

theorem WInv_getA (m : List (String × List Word))
    (hm : ∀ p ∈ m, ∀ w ∈ p.2, WordInv w) (k : String) :
    ∀ w ∈ getA m k, WordInv w := by
  intro w hw
  obtain ⟨p, hp, _, hwp⟩ := mem_getA m k w hw
  exact hm p hp w hwp

theorem saveEdit_inv (d : DictionaryData) (selCat : String) (fLo fHi : ℚ)
    (q : String) (sortBy : Option SortDir) (wordIdx : Nat) (f : WField)
    (ev : EditVal) (h : DictWordsInv d) (hnum : (ev.num.getD 1).den = 1) :
    DictWordsInv (saveEdit d selCat fLo fHi q sortBy wordIdx f ev) := by
  unfold saveEdit
  intro p hp
  refine WInv_setA d.words selCat _ h ?_ p hp
  intro w hw
  rcases List.mem_or_eq_of_mem_set hw with hmem | rfl
  · exact WInv_getA d.words h selCat w hmem
  · exact WordInv_setF _ f ev
      (WordInv_getD (getA d.words selCat) _ (WInv_getA d.words h selCat)) hnum

theorem handleDeleteWord_inv (d : DictionaryData) (selCat : String) (idx : Nat)
    (h : DictWordsInv d) : DictWordsInv (handleDeleteWord d selCat idx) := by
  unfold handleDeleteWord
  intro p hp
  refine WInv_setA d.words selCat _ h ?_ p hp
  intro w hw
  exact WInv_getA d.words h selCat w ((List.eraseIdx_sublist _ idx).mem hw)

theorem handleBulkDelete_inv (d : DictionaryData) (selCat : String)
    (sel : List Nat) (h : DictWordsInv d) :
    DictWordsInv (handleBulkDelete d selCat sel) := by
  unfold handleBulkDelete
  by_cases hs : sel = []
  · rw [if_pos hs]; exact h
  · rw [if_neg hs]
    intro p hp
    refine WInv_setA d.words selCat _ h ?_ p hp
    intro w hw
    obtain ⟨pr, hpr, rfl⟩ := List.mem_map.mp hw
    exact WInv_getA d.words h selCat pr.2
      (snd_mem_of_mem_withIdx _ 0 pr (List.mem_of_mem_filter hpr))

theorem moveSelectedToCategory_inv (d : DictionaryData) (selCat targetCat : String)
    (sel : List Nat) (h : DictWordsInv d) :
    DictWordsInv (moveSelectedToCategory d selCat targetCat sel) := by
  unfold moveSelectedToCategory
  by_cases hs : sel = []
  · rw [if_pos hs]; exact h
  · rw [if_neg hs]
    have hmv : ∀ w ∈ ((withIdx (getA d.words selCat) 0).filter
        (fun p => decide (p.1 ∈ sel))).map (fun p => p.2), WordInv w := by
      intro w hw
      obtain ⟨pr, hpr, rfl⟩ := List.mem_map.mp hw
      exact WInv_getA d.words h selCat pr.2
        (snd_mem_of_mem_withIdx _ 0 pr (List.mem_of_mem_filter hpr))
    have hrem : ∀ w ∈ ((withIdx (getA d.words selCat) 0).filter
        (fun p => decide (p.1 ∉ sel))).map (fun p => p.2), WordInv w := by
      intro w hw
      obtain ⟨pr, hpr, rfl⟩ := List.mem_map.mp hw
      exact WInv_getA d.words h selCat pr.2
        (snd_mem_of_mem_withIdx _ 0 pr (List.mem_of_mem_filter hpr))
    have htgt : ∀ w ∈ getA d.words targetCat ++
        ((withIdx (getA d.words selCat) 0).filter
          (fun p => decide (p.1 ∈ sel))).map (fun p => p.2), WordInv w := by
      intro w hw
      rcases List.mem_append.mp hw with hw2 | hw2
      · exact WInv_getA d.words h targetCat w hw2
      · exact hmv w hw2
    intro p hp
    unfold objSpread2 at hp
    dsimp only at hp
    by_cases heq : targetCat = selCat
    · rw [if_pos heq] at hp
      exact WInv_setA d.words targetCat _ h htgt p hp
    · rw [if_neg heq] at hp
      refine WInv_setA _ targetCat _ ?_ htgt p hp
      exact WInv_setA d.words selCat _ h hrem

theorem handleAddGeneratedWords_inv (d : DictionaryData) (selCat : String)
    (gen : List Word) (genSel : List Nat) (h : DictWordsInv d)
    (hg : ∀ w ∈ gen, WordInv w) :
    DictWordsInv (handleAddGeneratedWords d selCat gen genSel) := by
  unfold handleAddGeneratedWords
  by_cases hs : gen = []
  · rw [if_pos hs]; exact h
  · rw [if_neg hs]
    intro p hp
    refine WInv_setA d.words selCat _ h ?_ p hp
    intro w hw
    rcases List.mem_append.mp hw with hw2 | hw2
    · exact WInv_getA d.words h selCat w hw2
    · obtain ⟨pr, hpr, rfl⟩ := List.mem_map.mp hw2
      exact hg pr.2 (snd_mem_of_mem_withIdx _ 0 pr (List.mem_of_mem_filter hpr))

/-- Claim C6, amended: legacy conversion establishes the integer 1 to 10
intensity invariant (each produced word lies in its category range), and
word deletion, bulk deletion and bulk move preserve it. Cell editing clamps
the numeric value into 1 to 10 but stores it unrounded, so it preserves the
invariant only when the numeric value of the edit buffer is an integer or
NaN; adding AI-generated words preserves it only when the parsed words
themselves satisfy it, since they are inserted without validation. Claim C6
asserts unconditional preservation for both operations, which the
counterexample refutes on each. -/
theorem claim_C6_amended :
    (∀ (leg : Legacy) (variant : DictionaryVariant) (r : String → Nat → Nat),
      DictWordsInv (convertLegacyToNew leg variant r)) ∧
    (∀ (d : DictionaryData) (selCat : String) (fLo fHi : ℚ) (q : String)
      (sortBy : Option SortDir) (wordIdx : Nat) (f : WField) (ev : EditVal),
      DictWordsInv d → (ev.num.getD 1).den = 1 →
      DictWordsInv (saveEdit d selCat fLo fHi q sortBy wordIdx f ev)) ∧
    (∀ (d : DictionaryData) (selCat : String) (idx : Nat), DictWordsInv d →
      DictWordsInv (handleDeleteWord d selCat idx)) ∧
    (∀ (d : DictionaryData) (selCat : String) (sel : List Nat), DictWordsInv d →
      DictWordsInv (handleBulkDelete d selCat sel)) ∧
    (∀ (d : DictionaryData) (selCat targetCat : String) (sel : List Nat),
      DictWordsInv d →
      DictWordsInv (moveSelectedToCategory d selCat targetCat sel)) ∧
    (∀ (d : DictionaryData) (selCat : String) (gen : List Word) (genSel : List Nat),
      DictWordsInv d → (∀ w ∈ gen, WordInv w) →
      DictWordsInv (handleAddGeneratedWords d selCat gen genSel)) :=
  ⟨convertLegacyToNew_inv,
   saveEdit_inv,
   handleDeleteWord_inv,
   handleBulkDelete_inv,
   moveSelectedToCategory_inv,
   handleAddGeneratedWords_inv⟩

/-- State with a valid invariant used to refute claim C6. -/
def dC6 : DictionaryData :=
  ⟨[⟨"party", "Party", "🎉", 2, 5⟩], [("party", [])]⟩

/-- The JS number 2.5, the value of Number for the edit input 2.5. -/
def qHalf5 : ℚ := ⟨5, 2, by norm_num, by norm_num⟩

/-- One-word state with a valid invariant used to refute the cell-editing
part of claim C6. -/
def dC6f : DictionaryData :=
  ⟨[⟨"party", "Party", "🎉", 2, 5⟩], [("party", [⟨"a", "", "", "", 5⟩])]⟩

/-- Claim C6 counterexample, one per refuted operation:
handleAddGeneratedWords inserts a parsed word with intensity 0 unvalidated,
and saveEdit with the fractional input 2.5 stores intensity 5/2 unrounded
(the clamp bounds but does not round), so neither operation preserves the
integer 1 to 10 intensity invariant. -/
theorem claim_C6_counterexample :
    (DictWordsInv dC6 ∧
      ¬ DictWordsInv
        (handleAddGeneratedWords dC6 "party" [⟨"a", "", "", "", 0⟩] [0])) ∧
    (DictWordsInv dC6f ∧
      (getA (saveEdit dC6f "party" 1 10 "" none 0 WField.intensity
        ⟨"2.5", some qHalf5⟩).words "party").map (fun w => w.intensity) =
        [qHalf5] ∧
      qHalf5.den = 2 ∧
      ¬ DictWordsInv
        (saveEdit dC6f "party" 1 10 "" none 0 WField.intensity
          ⟨"2.5", some qHalf5⟩)) := by
  decide

/-- Witness for the amended claim C6: every hypothesis-bearing conjunct
applied at a concrete state. -/
theorem claim_C6_witness :
    DictWordsInv (saveEdit dC6 "party" 1 10 "" none 0 WField.intensity
      ⟨"77", some 77⟩) ∧
    DictWordsInv (handleDeleteWord dC6 "party" 0) ∧
    DictWordsInv (handleBulkDelete dC6 "party" [0]) ∧
    DictWordsInv (moveSelectedToCategory dC6 "party" "party" [0]) ∧
    DictWordsInv (handleAddGeneratedWords dC6 "party" [⟨"a", "", "", "", 3⟩] [0]) :=
  ⟨claim_C6_amended.2.1 dC6 "party" 1 10 "" none 0 WField.intensity
      ⟨"77", some 77⟩ (by decide) (by decide),
   claim_C6_amended.2.2.1 dC6 "party" 0 (by decide),
   claim_C6_amended.2.2.2.1 dC6 "party" [0] (by decide),
   claim_C6_amended.2.2.2.2.1 dC6 "party" "party" [0] (by decide),
   claim_C6_amended.2.2.2.2.2 dC6 "party" [⟨"a", "", "", "", 3⟩] [0] (by decide)
     (by decide)⟩

/-- Underlying index _idx named by the edited row of the view. -/
def editIdx (d : DictionaryData) (selCat : String) (fLo fHi : ℚ) (q : String)
    (sortBy : Option SortDir) (wordIdx : Nat) : Nat :=
  ((viewOf d selCat fLo fHi q sortBy).getD wordIdx (dWord, 0)).2

theorem saveEdit_eq (d : DictionaryData) (selCat : String) (fLo fHi : ℚ)
    (q : String) (sortBy : Option SortDir) (wordIdx : Nat) (f : WField)
    (ev : EditVal) :
    saveEdit d selCat fLo fHi q sortBy wordIdx f ev =
      { d with words := (setA d.words selCat
        ((getA d.words selCat).set (editIdx d selCat fLo fHi q sortBy wordIdx)
          (((getA d.words selCat).getD (editIdx d selCat fLo fHi q sortBy wordIdx)
            dWord).setF f ev))) } := rfl

/-- Every row of the filtered and sorted view carries the word stored at its
original index _idx in the selected category. -/
theorem viewOf_mem (d : DictionaryData) (selCat : String) (fLo fHi : ℚ)
    (q : String) (sortBy : Option SortDir) (p : Word × Nat)
    (hp : p ∈ viewOf d selCat fLo fHi q sortBy) :
    (getA d.words selCat)[p.2]? = some p.1 := by
  unfold viewOf at hp
  dsimp only at hp
  have hp2 : p ∈ (if q = "" then
      ((withIdx (getA d.words selCat) 0).map (fun p => (p.2, p.1))).filter
        (fun p => decide (fLo ≤ p.1.intensity ∧ p.1.intensity ≤ fHi))
    else
      (((withIdx (getA d.words selCat) 0).map (fun p => (p.2, p.1))).filter
        (fun p => decide (fLo ≤ p.1.intensity ∧ p.1.intensity ≤ fHi))).filter
        (fun p => matchesQuery p.1 (toLowerStr q))) := by
    cases sortBy with
    | none => exact hp
    | some dir =>
      cases dir with
      | asc => exact (List.mergeSort_perm _ _).mem_iff.mp hp
      | desc => exact (List.mergeSort_perm _ _).mem_iff.mp hp
  have hp3 : p ∈ ((withIdx (getA d.words selCat) 0).map (fun p => (p.2, p.1))).filter
      (fun p => decide (fLo ≤ p.1.intensity ∧ p.1.intensity ≤ fHi)) := by
    by_cases hq : q = ""
    · rw [if_pos hq] at hp2; exact hp2
    · rw [if_neg hq] at hp2; exact List.mem_of_mem_filter hp2
  have hp4 := List.mem_of_mem_filter hp3
  obtain ⟨pr, hpr, rfl⟩ := List.mem_map.mp hp4
  have : (pr.1, pr.2) ∈ withIdx (getA d.words selCat) 0 := by
    obtain ⟨a, b⟩ := pr
    exact hpr
  exact (mem_withIdx_zero _ pr.1 pr.2).mp this

/-- Claim C8: saveEdit through the filtered and sorted view rewrites exactly
the edited field of the word at its original index _idx in the selected
category: an intensity edit lands clamped in 1 to 10 with non-numeric input
becoming 5, the other fields of the edited word, the other words, the other
keys of the words object and the category list are unchanged. -/
theorem claim_C8 (d : DictionaryData) (selCat : String) (fLo fHi : ℚ)
    (q : String) (sortBy : Option SortDir) (wordIdx : Nat) (f : WField)
    (ev : EditVal)
    (hlt : wordIdx < (viewOf d selCat fLo fHi q sortBy).length) :
    (saveEdit d selCat fLo fHi q sortBy wordIdx f ev).categories = d.categories ∧
    (∀ k, k ≠ selCat →
      lookupA (saveEdit d selCat fLo fHi q sortBy wordIdx f ev).words k =
        lookupA d.words k) ∧
    editIdx d selCat fLo fHi q sortBy wordIdx < (getA d.words selCat).length ∧
    getA (saveEdit d selCat fLo fHi q sortBy wordIdx f ev).words selCat =
      (getA d.words selCat).set (editIdx d selCat fLo fHi q sortBy wordIdx)
        (((getA d.words selCat).getD (editIdx d selCat fLo fHi q sortBy wordIdx)
          dWord).setF f ev) ∧
    (∀ j, j ≠ editIdx d selCat fLo fHi q sortBy wordIdx →
      (getA (saveEdit d selCat fLo fHi q sortBy wordIdx f ev).words selCat)[j]? =
        (getA d.words selCat)[j]?) ∧
    (getA (saveEdit d selCat fLo fHi q sortBy wordIdx f ev).words
        selCat)[editIdx d selCat fLo fHi q sortBy wordIdx]? =
      some (((getA d.words selCat).getD (editIdx d selCat fLo fHi q sortBy wordIdx)
        dWord).setF f ev) ∧
    (∀ l : Lang, f = WField.lang l →
      (((getA d.words selCat).getD (editIdx d selCat fLo fHi q sortBy wordIdx)
        dWord).setF f ev).get l = ev.raw ∧
      (((getA d.words selCat).getD (editIdx d selCat fLo fHi q sortBy wordIdx)
        dWord).setF f ev).intensity =
        ((getA d.words selCat).getD (editIdx d selCat fLo fHi q sortBy wordIdx)
          dWord).intensity ∧
      (∀ l2 : Lang, l2 ≠ l →
        (((getA d.words selCat).getD (editIdx d selCat fLo fHi q sortBy wordIdx)
          dWord).setF f ev).get l2 =
          ((getA d.words selCat).getD (editIdx d selCat fLo fHi q sortBy wordIdx)
            dWord).get l2)) ∧
    (f = WField.intensity →
      1 ≤ (((getA d.words selCat).getD (editIdx d selCat fLo fHi q sortBy wordIdx)
        dWord).setF f ev).intensity ∧
      (((getA d.words selCat).getD (editIdx d selCat fLo fHi q sortBy wordIdx)
        dWord).setF f ev).intensity ≤ 10 ∧
      (ev.num = none →
        (((getA d.words selCat).getD (editIdx d selCat fLo fHi q sortBy wordIdx)
          dWord).setF f ev).intensity = 5) ∧
      (∀ l : Lang,
        (((getA d.words selCat).getD (editIdx d selCat fLo fHi q sortBy wordIdx)
          dWord).setF f ev).get l =
          ((getA d.words selCat).getD (editIdx d selCat fLo fHi q sortBy wordIdx)
            dWord).get l)) := by
  have hidx : editIdx d selCat fLo fHi q sortBy wordIdx <
      (getA d.words selCat).length := by
    have hmem : (viewOf d selCat fLo fHi q sortBy).getD wordIdx (dWord, 0) ∈
        viewOf d selCat fLo fHi q sortBy := by
      rw [List.getD_eq_getElem _ _ hlt]
      exact List.getElem_mem hlt
    have := viewOf_mem d selCat fLo fHi q sortBy _ hmem
    obtain ⟨hl, _⟩ := List.getElem?_eq_some_iff.mp this
    exact hl
  refine ⟨rfl, ?_, hidx, ?_, ?_, ?_, ?_, ?_⟩
  · intro k hk
    rw [saveEdit_eq]
    dsimp only
    rw [lookupA_setA, if_neg hk]
  · rw [saveEdit_eq]
    dsimp only
    rw [getA_setA, if_pos rfl]
  · intro j hj
    rw [saveEdit_eq]
    dsimp only
    rw [getA_setA, if_pos rfl, List.getElem?_set_ne (fun hc => hj hc.symm)]
  · rw [saveEdit_eq]
    dsimp only
    rw [getA_setA, if_pos rfl, List.getElem?_set_self hidx]
  · rintro l rfl
    refine ⟨?_, ?_, ?_⟩
    · cases l <;> rfl
    · cases l <;> rfl
    · intro l2 hne
      cases l <;> cases l2 <;> first | rfl | exact absurd rfl hne
  · rintro rfl
    have hcl := clamp10_bounds (numOr5 ev.num)
    refine ⟨hcl.1, hcl.2, ?_, fun l => by cases l <;> rfl⟩
    intro hnone
    show clamp10 (numOr5 ev.num) = 5
    rw [hnone]
    rfl

/-- One-word state used to witness claim C8. -/
def dC8 : DictionaryData :=
  ⟨[⟨"party", "Party", "🎉", 2, 5⟩], [("party", [⟨"a", "b", "c", "d", 5⟩])]⟩

/-- Witness for claim C8 at the concrete state dC8, editing the intensity
cell of the only row with a non-numeric value. -/
theorem claim_C8_witness :
    getA (saveEdit dC8 "party" 1 10 "" none 0 WField.intensity
        ⟨"abc", none⟩).words "party" =
      (getA dC8.words "party").set (editIdx dC8 "party" 1 10 "" none 0)
        (((getA dC8.words "party").getD (editIdx dC8 "party" 1 10 "" none 0)
          dWord).setF WField.intensity ⟨"abc", none⟩) :=
  (claim_C8 dC8 "party" 1 10 "" none 0 WField.intensity ⟨"abc", none⟩
    (by decide)).2.2.2.1

theorem countP_split {α : Type} (l : List α) (p q : α → Bool) :
    l.countP (fun a => p a && q a) + l.countP (fun a => p a && !q a) =
      l.countP p := by
  induction l with
  | nil => simp
  | cons a t ih =>
    by_cases hp : p a <;> by_cases hq : q a <;>
      simp [List.countP_cons, hp, hq] <;> omega

theorem count_map_snd (xs : List (Nat × Word)) (w : Word) :
    (xs.map (fun p => p.2)).count w = xs.countP (fun p => p.2 == w) := by
  rw [List.count, List.countP_map]
  rfl

/-- Claim C9: moving a non-empty selection to a different category appends
the selected words to the end of the target list in their original order,
keeps the unselected words in the source in their original order, leaves
every other key untouched, keeps the category list, and preserves the
multiset of stored words. -/
theorem claim_C9 (d : DictionaryData) (selCat targetCat : String)
    (sel : List Nat) (hne : sel ≠ []) (hst : targetCat ≠ selCat) :
    (moveSelectedToCategory d selCat targetCat sel).categories = d.categories ∧
    getA (moveSelectedToCategory d selCat targetCat sel).words selCat =
      ((withIdx (getA d.words selCat) 0).filter
        (fun p => decide (p.1 ∉ sel))).map (fun p => p.2) ∧
    getA (moveSelectedToCategory d selCat targetCat sel).words targetCat =
      getA d.words targetCat ++
        ((withIdx (getA d.words selCat) 0).filter
          (fun p => decide (p.1 ∈ sel))).map (fun p => p.2) ∧
    (∀ k, k ≠ selCat → k ≠ targetCat →
      lookupA (moveSelectedToCategory d selCat targetCat sel).words k =
        lookupA d.words k) ∧
    (∀ w : Word, countD (moveSelectedToCategory d selCat targetCat sel).words w =
      countD d.words w) := by
  unfold moveSelectedToCategory
  rw [if_neg hne]
  unfold objSpread2
  dsimp only
  rw [if_neg hst]
  refine ⟨rfl, ?_, ?_, ?_, ?_⟩
  · rw [getA_setA, if_neg (Ne.symm hst), getA_setA, if_pos rfl]
  · rw [getA_setA, if_pos rfl]
  · intro k hk1 hk2
    rw [lookupA_setA, if_neg hk2, lookupA_setA, if_neg hk1]
  · intro w
    have h1 := countD_setA d.words selCat
      (((withIdx (getA d.words selCat) 0).filter
        (fun p => decide (p.1 ∉ sel))).map (fun p => p.2)) w
    have h2 := countD_setA
      (setA d.words selCat
        (((withIdx (getA d.words selCat) 0).filter
          (fun p => decide (p.1 ∉ sel))).map (fun p => p.2)))
      targetCat
      (getA d.words targetCat ++
        ((withIdx (getA d.words selCat) 0).filter
          (fun p => decide (p.1 ∈ sel))).map (fun p => p.2)) w
    rw [getA_setA, if_neg hst] at h2
    rw [List.count_append] at h2
    have hsplit : (((withIdx (getA d.words selCat) 0).filter
        (fun p => decide (p.1 ∈ sel))).map (fun p => p.2)).count w +
        (((withIdx (getA d.words selCat) 0).filter
          (fun p => decide (p.1 ∉ sel))).map (fun p => p.2)).count w =
        (getA d.words selCat).count w := by
      rw [count_map_snd, count_map_snd, List.countP_filter, List.countP_filter]
      have hnot : ∀ p ∈ withIdx (getA d.words selCat) 0,
          ((fun p : Nat × Word => p.2 == w) p && decide (p.1 ∉ sel)) =
            ((fun p : Nat × Word => p.2 == w) p && !decide (p.1 ∈ sel)) := by
        intro p _
        rw [decide_not]
      rw [countP_congr_list _ _ _ hnot]
      rw [countP_split]
      have := countP_withIdx (getA d.words selCat) 0 (fun v => v == w)
      rw [this]
      rw [List.count]
    omega

/-- Two-category state used to witness claims C9 and C10. -/
def dC9 : DictionaryData :=
  ⟨[⟨"a", "A", "", 1, 10⟩, ⟨"b", "B", "", 1, 10⟩],
   [("a", [⟨"1", "", "", "", 5⟩, ⟨"2", "", "", "", 5⟩]), ("b", [⟨"3", "", "", "", 5⟩])]⟩

/-- Witness for claim C9 at the concrete state dC9, moving the first word of
category a to category b. -/
theorem claim_C9_witness :
    getA (moveSelectedToCategory dC9 "a" "b" [0]).words "b" =
      getA dC9.words "b" ++
        ((withIdx (getA dC9.words "a") 0).filter
          (fun p => decide (p.1 ∈ ([0] : List Nat)))).map (fun p => p.2) ∧
    countD (moveSelectedToCategory dC9 "a" "b" [0]).words ⟨"1", "", "", "", 5⟩ =
      countD dC9.words ⟨"1", "", "", "", 5⟩ :=
  ⟨(claim_C9 dC9 "a" "b" [0] (by decide) (by decide)).2.2.1,
   (claim_C9 dC9 "a" "b" [0] (by decide) (by decide)).2.2.2.2 ⟨"1", "", "", "", 5⟩⟩

theorem keyInv_iff (d : DictionaryData) :
    keyInv d ↔ ∀ k, (k ∈ keysA d.words ↔ k ∈ catIds d) := by
  unfold keyInv keysA catIds
  constructor
  · rintro ⟨h1, h2⟩ k
    constructor
    · intro hk
      obtain ⟨p, hp, rfl⟩ := List.mem_map.mp hk
      obtain ⟨c, hc, hcid⟩ := h1 p hp
      exact List.mem_map.mpr ⟨c, hc, hcid⟩
    · intro hk
      obtain ⟨c, hc, rfl⟩ := List.mem_map.mp hk
      obtain ⟨p, hp, hpc⟩ := h2 c hc
      exact List.mem_map.mpr ⟨p, hp, hpc⟩
  · intro h
    constructor
    · intro p hp
      have hm : p.1 ∈ List.map (fun c => c.id) d.categories :=
        (h p.1).mp (List.mem_map_of_mem (fun p => p.1) hp)
      obtain ⟨c, hc, hcid⟩ := List.mem_map.mp hm
      exact ⟨c, hc, hcid⟩
    · intro c hc
      have hm : c.id ∈ List.map (fun p => p.1) d.words :=
        (h c.id).mpr (List.mem_map_of_mem (fun c => c.id) hc)
      obtain ⟨p, hp, hpk⟩ := List.mem_map.mp hm
      exact ⟨p, hp, hpk⟩

/-- Updating an existing key keeps the key set equal to the id set. -/
theorem keyInv_setA_op (d : DictionaryData) (selCat : String) (v : List Word)
    (hd : keyInv d) (hsel : selCat ∈ catIds d) :
    keyInv ⟨d.categories, setA d.words selCat v⟩ := by
  rw [keyInv_iff] at hd ⊢
  intro k
  show k ∈ keysA (setA d.words selCat v) ↔ k ∈ catIds d
  rw [mem_keysA_setA]
  constructor
  · rintro (rfl | hk)
    · exact hsel
    · exact (hd k).mp hk
  · intro hk
    exact Or.inr ((hd k).mpr hk)

theorem mem_keysA_eraseA {α : Type} (m : List (String × α)) (k0 k : String) :
    k ∈ keysA (eraseA m k0) ↔ k ∈ keysA m ∧ k ≠ k0 := by
  unfold keysA eraseA
  constructor
  · intro hk
    obtain ⟨p, hp, rfl⟩ := List.mem_map.mp hk
    obtain ⟨hpm, hpne⟩ := List.mem_filter.mp hp
    exact ⟨List.mem_map_of_mem _ hpm, by simpa using hpne⟩
  · rintro ⟨hk, hne⟩
    obtain ⟨p, hp, rfl⟩ := List.mem_map.mp hk
    exact List.mem_map_of_mem _ (List.mem_filter.mpr ⟨hp, by simpa using hne⟩)

theorem mem_keysA_foldl_setA {β : Type} (cs : List CategoryMeta)
    (F : CategoryMeta → List β → List β) (m0 : List (String × List β)) (k : String) :
    k ∈ keysA (cs.foldl (fun m c => setA m c.id (F c (getA m c.id))) m0) ↔
      k ∈ keysA m0 ∨ k ∈ cs.map (fun c => c.id) := by
  induction cs generalizing m0 with
  | nil => simp
  | cons c rest ih =>
    rw [List.foldl_cons, ih, mem_keysA_setA]
    simp only [List.map_cons, List.mem_cons]
    tauto

/-- Key invariant established by the legacy conversion. -/
theorem convertLegacyToNew_keyInv (leg : Legacy) (variant : DictionaryVariant)
    (r : String → Nat → Nat) : keyInv (convertLegacyToNew leg variant r) := by
  rw [keyInv_iff]
  intro k
  show k ∈ keysA ((convertLegacyToNew leg variant r).categories.foldl
    (fun m c => setA m c.id (buildCatWords leg c r)) []) ↔ _
  have := mem_keysA_foldl_setA (convertLegacyToNew leg variant r).categories
    (fun c _ => buildCatWords leg c r) [] k
  simp only at this
  rw [this]
  unfold catIds keysA
  simp

/-- Claim C10: the legacy conversion establishes the equality between the
key set of the words object and the id set of the category list, and adding
a category, deleting a category, deleting a word, saving a cell edit, moving
a selection to an existing category and removing duplicates all preserve it
(word-level operations act on the currently selected category, which the
interface guarantees to be one of the listed categories). -/
theorem claim_C10 (d : DictionaryData) (hd : keyInv d) (selCat targetCat : String)
    (hsel : selCat ∈ catIds d) (htgt : targetCat ∈ catIds d)
    (name emoji : String) (lo hi : Int) (catId : String) (idx : Nat)
    (sel : List Nat) (fLo fHi : ℚ) (q : String) (sortBy : Option SortDir)
    (wordIdx : Nat) (f : WField) (ev : EditVal) :
    (∀ (leg : Legacy) (variant : DictionaryVariant) (r : String → Nat → Nat),
      keyInv (convertLegacyToNew leg variant r)) ∧
    keyInv (handleAddCategory d name emoji lo hi) ∧
    keyInv (handleDeleteCategory d catId) ∧
    keyInv (handleDeleteWord d selCat idx) ∧
    keyInv (saveEdit d selCat fLo fHi q sortBy wordIdx f ev) ∧
    keyInv (moveSelectedToCategory d selCat targetCat sel) ∧
    keyInv (removeDuplicates d) := by
  refine ⟨convertLegacyToNew_keyInv, ?_, ?_, ?_, ?_, ?_, ?_⟩
  · unfold handleAddCategory
    by_cases hn : name = ""
    · rw [if_pos hn]; exact hd
    · rw [if_neg hn]
      by_cases he : ∃ c ∈ d.categories, c.id = sanitizeId name
      · rw [if_pos he]; exact hd
      · rw [if_neg he]
        rw [keyInv_iff] at hd ⊢
        intro k
        show k ∈ keysA (setA d.words (sanitizeId name) []) ↔
          k ∈ (d.categories ++
            ([⟨sanitizeId name, name, emoji, lo, hi⟩] : List CategoryMeta)).map
            (fun c => c.id)
        rw [mem_keysA_setA, List.map_append, List.mem_append]
        simp only [List.map_cons, List.map_nil, List.mem_singleton]
        constructor
        · rintro (rfl | hk)
          · exact Or.inr rfl
          · exact Or.inl ((hd k).mp hk)
        · rintro (hk | rfl)
          · exact Or.inr ((hd k).mpr hk)
          · exact Or.inl rfl
  · unfold handleDeleteCategory
    rw [keyInv_iff] at hd ⊢
    intro k
    show k ∈ keysA (eraseA d.words catId) ↔
      k ∈ (d.categories.filter (fun c => decide (c.id ≠ catId))).map (fun c => c.id)
    rw [mem_keysA_eraseA]
    constructor
    · rintro ⟨hk, hne⟩
      have := (hd k).mp hk
      obtain ⟨c, hc, rfl⟩ := List.mem_map.mp this
      exact List.mem_map_of_mem _ (List.mem_filter.mpr ⟨hc, by simpa using hne⟩)
    · intro hk
      obtain ⟨c, hc, rfl⟩ := List.mem_map.mp hk
      obtain ⟨hcm, hcne⟩ := List.mem_filter.mp hc
      exact ⟨(hd c.id).mpr (List.mem_map_of_mem _ hcm), by simpa using hcne⟩
  · unfold handleDeleteWord
    exact keyInv_setA_op d selCat _ hd hsel
  · rw [saveEdit_eq]
    exact keyInv_setA_op d selCat _ hd hsel
  · unfold moveSelectedToCategory
    by_cases hs : sel = []
    · rw [if_pos hs]; exact hd
    · rw [if_neg hs]
      unfold objSpread2
      dsimp only
      by_cases heq : targetCat = selCat
      · rw [if_pos heq]
        exact keyInv_setA_op d targetCat _ hd htgt
      · rw [if_neg heq]
        have hmid := keyInv_setA_op d selCat
          (((withIdx (getA d.words selCat) 0).filter
            (fun p => decide (p.1 ∉ sel))).map (fun p => p.2)) hd hsel
        exact keyInv_setA_op
          ⟨d.categories, setA d.words selCat _⟩ targetCat _ hmid htgt
  · unfold removeDuplicates removeDupsWith
    by_cases h0 : (duplicates d).length = 0
    · rw [if_pos h0]; exact hd
    · rw [if_neg h0]
      rw [keyInv_iff] at hd ⊢
      intro k
      have := mem_keysA_foldl_setA d.categories
        (fun c ws => ((withIdx ws 0).filter
          (fun p => decide (p.1 ∉ getA (rmTable (duplicates d) d.categories) c.id))).map
          (fun p => p.2)) d.words k
      simp only at this
      show k ∈ keysA (d.categories.foldl _ d.words) ↔ k ∈ catIds d
      rw [this]
      constructor
      · rintro (hk | hk)
        · exact (hd k).mp hk
        · exact hk
      · intro hk
        exact Or.inr hk

/-- Witness for claim C10 at the concrete state dC9. -/
theorem claim_C10_witness :
    keyInv (handleAddCategory dC9 "New Cat" "📁" 3 7) ∧
    keyInv (handleDeleteCategory dC9 "b") ∧
    keyInv (handleDeleteWord dC9 "a" 0) ∧
    keyInv (saveEdit dC9 "a" 1 10 "" none 0 (WField.lang Lang.ru) ⟨"z", none⟩) ∧
    keyInv (moveSelectedToCategory dC9 "a" "b" [0]) ∧
    keyInv (removeDuplicates dC9) :=
  (claim_C10 dC9 (by decide) "a" "b" (by decide) (by decide) "New Cat" "📁" 3 7
    "b" 0 [0] 1 10 "" none 0 (WField.lang Lang.ru) ⟨"z", none⟩).2
